import Mathlib

/-!
Verification development for the `ptw` (Predicate Time Windows) schedule
expression engine.  The definitions below are a shallow embedding of the
TypeScript sources: JavaScript numbers are modelled as `Int` (all values in
play are exact integers), JavaScript truncating remainder `%` is `Int.tmod`,
`Math.floor(a / b)` for positive `b` is `Int.ediv`, fallible code returns
`Except`, and the unbounded recursion of block evaluation is made total with
an explicit fuel argument (fuel exhaustion corresponds to the stack overflow
the source would hit on cyclic references).
-/

namespace PTW

/-- Milliseconds in one UTC day. -/
def msPerDay : Int := 86400000

/-- Embedding of the `DateTimeRange` record of `src/types.ts`: an inclusive
interval of UTC milliseconds.  The TypeScript field `end` is called `stop`
here because `end` is a Lean keyword. -/
structure DateTimeRange where
  start : Int
  stop : Int
  deriving Repr, DecidableEq

/-- Embedding of the `MergeState` enum of `src/types.ts` (numeric values
0, 1, 2 in source order). -/
inductive MergeState where
  | DEFAULT
  | EXPLICIT_ON
  | EXPLICIT_OFF
  deriving Repr, DecidableEq

/-- Numeric value of a `MergeState`, as produced by TypeScript string
interpolation of the enum member. -/
def MergeState.toNum : MergeState → Int
  | .DEFAULT => 0
  | .EXPLICIT_ON => 1
  | .EXPLICIT_OFF => 2

/-- Embedding of the algebraic operator of `AlgebraicValue` (`'+' | '-'`). -/
inductive AlgOp where
  | plus
  | minus
  deriving Repr, DecidableEq

/-- Embedding of `ParsedNumericValue` of `src/types.ts`: the three constraint
forms carried by the numeric fields. -/
inductive ParsedNumericValue where
  | Number (value : Int)
  | Range (start stop : Int)
  | Algebraic (coefficientN : Int) (op : AlgOp) (constantY : Int)
  deriving Repr, DecidableEq

/-- The expression tree (`IBlock` hierarchy).  Field blocks carry their value
list and their `MergeState`; `and`/`or` carry an ordered child list, `not` an
optional child, `ref` a registry id.  This is the sum-type view of the class
hierarchy under `src/blocks`. -/
inductive Block where
  | time (values : List DateTimeRange) (merge : MergeState)
  | weekDay (values : List ParsedNumericValue) (merge : MergeState)
  | month (values : List ParsedNumericValue) (merge : MergeState)
  | monthDay (values : List ParsedNumericValue) (merge : MergeState)
  | year (values : List ParsedNumericValue) (merge : MergeState)
  | dateF (values : List DateTimeRange) (merge : MergeState)
  | dateTime (values : List DateTimeRange) (merge : MergeState)
  | ref (id : String) (merge : MergeState)
  | and (blocks : List Block) (merge : MergeState)
  | or (blocks : List Block) (merge : MergeState)
  | not (block : Option Block) (merge : MergeState)

/-- Numeric value of the `BlockGroup` enum (`Field = 0`, `Condition = 1`,
`Reference = 2`), used by `AndBlock`/`OrBlock` to sort children before
evaluation. -/
def Block.blockGroup : Block → Int
  | .ref _ _ => 2
  | .and _ _ | .or _ _ | .not _ _ => 1
  | _ => 0

/-- Errors that evaluation can produce (`ReferenceError` cases of
`src/errors.ts`), plus `noFuel` marking the stack overflow that the
unboundedly recursive source would hit. -/
inductive EvalError where
  | referenceNoSchedule (id : String)
  | referenceNotFound (id : String)
  | noFuel
  deriving Repr, DecidableEq

instance {ε α : Type} [DecidableEq ε] [DecidableEq α] :
    DecidableEq (Except ε α) := fun a b =>
  match a, b with
  | .ok x, .ok y => decidable_of_iff (x = y) (by simp)
  | .error x, .error y => decidable_of_iff (x = y) (by simp)
  | .ok _, .error _ => .isFalse (by simp)
  | .error _, .ok _ => .isFalse (by simp)

/-- The registry view used during evaluation: the `expressions` map of a
`Schedule`, modelled as an association list in insertion order (`Map` keyed
lookup). -/
def Registry := List (String × Block)

/-- Lookup of `schedule.expressions.get(id)`. -/
def Registry.lookup (reg : Registry) (id : String) : Option Block :=
  (List.find? (fun p => p.1 == id) reg).map (·.2)

/-- Resolution of the effective merge flag, the expression
`this.merge !== MergeState.DEFAULT ? this.merge === MergeState.EXPLICIT_ON : (merge ?? true)`
that every block repeats.  The caller argument is `Option Bool` because the
TypeScript parameter is optional (`merge ?? true` realises the root default). -/
def resolveMerge (own : MergeState) (merge : Option Bool) : Bool :=
  match own with
  | .DEFAULT => merge.getD true
  | .EXPLICIT_ON => true
  | .EXPLICIT_OFF => false

/-! Calendar arithmetic: the UTC calendar computations done by the JavaScript
`Date` object, implemented over `Int` with the standard civil-calendar
algorithms.  `daysFromCivil y m d` is the epoch day number of year `y`, month
`m` (1-12), day `d`; `civilFromDays` is its inverse. -/

/-- Epoch day number of a civil date (Gregorian, proleptic; month 1-12).
The day argument may lie outside the month; it simply offsets in days, which
matches how the embedding uses it for `Date.UTC` day overflow. -/
def daysFromCivil (y m d : Int) : Int :=
  let yAdj : Int := y - (if m ≤ 2 then 1 else 0)
  let era : Int := yAdj / 400
  let yoe : Int := yAdj - era * 400
  let mp : Int := if m > 2 then m - 3 else m + 9
  let doy : Int := (153 * mp + 2) / 5 + d - 1
  let doe : Int := yoe * 365 + yoe / 4 - yoe / 100 + doy
  era * 146097 + doe - 719468

/-- Civil date (year, month 1-12, day 1-31) of an epoch day number. -/
def civilFromDays (z : Int) : Int × Int × Int :=
  let zAdj : Int := z + 719468
  let era : Int := zAdj / 146097
  let doe : Int := zAdj - era * 146097
  let yoe : Int := (doe - doe / 1460 + doe / 36524 - doe / 146096) / 365
  let y : Int := yoe + era * 400
  let doy : Int := doe - (365 * yoe + yoe / 4 - yoe / 100)
  let mp : Int := (5 * doy + 2) / 153
  let d : Int := doy - (153 * mp + 2) / 5 + 1
  let m : Int := if mp < 10 then mp + 3 else mp - 9
  (y + (if m ≤ 2 then 1 else 0), m, d)

/-- Epoch day number containing a UTC millisecond timestamp
(`Math.floor(ms / 86400000)`). -/
def dayOfMs (ms : Int) : Int := ms / msPerDay

/-- UTC midnight of the day containing `ms`: the value of
`Date.UTC(d.getUTCFullYear(), d.getUTCMonth(), d.getUTCDate())` for
`d = new Date(ms)`. -/
def utcMidnight (ms : Int) : Int := dayOfMs ms * msPerDay

/-- Embedding of `Date.UTC(year, monthIndex, day, h, mi, s, ms)` with the
JavaScript conventions: `monthIndex` is 0-based and may overflow into other
years, `day` may overflow or be 0/negative. -/
def dateUTC (year monthIndex day : Int) (h mi s ms : Int := 0) : Int :=
  let ym : Int := year * 12 + monthIndex
  let ny : Int := ym / 12
  let nm : Int := ym % 12
  (daysFromCivil ny (nm + 1) 1 + (day - 1)) * msPerDay
    + h * 3600000 + mi * 60000 + s * 1000 + ms

/-- Value of `new Date(ms).getUTCFullYear()`. -/
def getUTCFullYear (ms : Int) : Int := (civilFromDays (dayOfMs ms)).1

/-- Value of `new Date(ms).getUTCMonth()` (0-based). -/
def getUTCMonth (ms : Int) : Int := (civilFromDays (dayOfMs ms)).2.1 - 1

/-- Value of `new Date(ms).getUTCDate()` (day of month, 1-31). -/
def getUTCDate (ms : Int) : Int := (civilFromDays (dayOfMs ms)).2.2

/-- Value of `new Date(ms).getUTCDay()` (0 = Sunday .. 6 = Saturday; the
epoch day 0 was a Thursday). -/
def getUTCDay (ms : Int) : Int := (dayOfMs ms + 4) % 7

/-- Value of `new Date(ms).getUTCHours()`. -/
def getUTCHours (ms : Int) : Int := (ms % msPerDay) / 3600000

/-- Value of `new Date(ms).getUTCMinutes()`. -/
def getUTCMinutes (ms : Int) : Int := (ms % msPerDay % 3600000) / 60000

/-- Value of `new Date(ms).getUTCSeconds()`. -/
def getUTCSeconds (ms : Int) : Int := (ms % msPerDay % 60000) / 1000

/-- Value of `new Date(ms).getUTCMilliseconds()`. -/
def getUTCMilliseconds (ms : Int) : Int := ms % msPerDay % 1000

/-! Stable sorting.  `Array.prototype.sort` / `toSorted` is a stable sort;
for the total preorders used by the source (child `blockGroup`, sweep-line
event order, interval `start`) any stable sort produces the same list, so
the embedding uses a stable insertion sort, which also evaluates inside the
kernel. -/

/-- Insertion of `x` after every element `y` with `le y x` (keeps ties in
original order). -/
def orderedInsert (le : α → α → Bool) (x : α) : List α → List α
  | [] => [x]
  | y :: ys => if le y x then y :: orderedInsert le x ys else x :: y :: ys

/-- Stable sort by the boolean preorder `le`. -/
def stableSortBy (le : α → α → Bool) (l : List α) : List α :=
  l.foldl (fun acc x => orderedInsert le x acc) []

/-- Child ordering used by `AndBlock`/`OrBlock`:
`blocks.toSorted((b1, b2) => b1.blockGroup - b2.blockGroup)`. -/
def sortByGroup (l : List Block) : List Block :=
  stableSortBy (fun a b => a.blockGroup ≤ b.blockGroup) l

/-! Numeric constraint machinery of `src/utils/value.ts` and
`src/utils/cache.ts`. -/

/-- Ceiling division with positive divisor, the value of
`Math.ceil(a / b)` for integer `a` and positive integer `b` (the only case
the source exercises, because `checkAlgebraic` enforces `coefficientN > 0`). -/
def ceilDiv (a b : Int) : Int := -((-a) / b)

/-- Embedding of `getAlgebraicParameters` of `src/utils/value.ts`: the
inclusive range of `n` enumerated for an `a·n ± b` constraint, or `none`. -/
def getAlgebraicParameters (a : Int) (op : AlgOp) (y : Int) (lo hi : Int) :
    Option (Int × Int) :=
  if (y > hi && op == AlgOp.plus) || (y < lo && op == AlgOp.minus) then
    none
  else
    let ySigned : Int := if op == AlgOp.plus then y else -y
    some (max (ceilDiv (lo - ySigned) a) 1, (hi - ySigned) / a)

/-- Enumeration `for (let n = start; n <= end; n++)` testing whether some `n`
yields exactly `target`; the fuel is the loop length. -/
def algHitAux (a : Int) (op : AlgOp) (y target : Int) : Nat → Int → Bool
  | 0, _ => false
  | fuel + 1, n =>
    let val : Int := if op == AlgOp.plus then a * n + y else a * n - y
    if val == target then true else algHitAux a op y target fuel (n + 1)

/-- Test whether an `a·n ± b` constraint hits `target` when `n` is enumerated
over `getAlgebraicParameters a op y lo hi`. -/
def algMatches (a : Int) (op : AlgOp) (y : Int) (lo hi target : Int) : Bool :=
  match getAlgebraicParameters a op y lo hi with
  | none => false
  | some (nLo, nHi) => algHitAux a op y target (nHi + 1 - nLo).toNat nLo

/-- Embedding of `iterativeParsedValueCheck` of `src/utils/value.ts`. -/
def iterativeParsedValueCheck (values : List ParsedNumericValue)
    (toCheck lo hi : Int) : Bool :=
  values.any fun v =>
    match v with
    | .Number value => value == toCheck
    | .Range s e => toCheck ≥ s && toCheck ≤ e
    | .Algebraic a op y => algMatches a op y lo hi toCheck

/-- Bit of the per-field bitmap cache for value `v` (1-based), as computed by
`Field.cacheParsedNumeric` with `updateBitmap`/`updateAlgebraicBitmap`
(`src/blocks/fields/Field.ts` and `src/utils/cache.ts`): `Number` sets its
bit when within `[lo, hi]`, `Range` sets the clamped span, `Algebraic`
enumerates `n` over `getAlgebraicParameters _ _ _ 1 hi` and sets hits within
`[1, hi]`.  `Field.getActiveParsedNumeric` reads these bits back. -/
def numericBit (values : List ParsedNumericValue) (lo hi v : Int) : Bool :=
  values.any fun value =>
    match value with
    | .Number n => n ≥ lo && n ≤ hi && n == v
    | .Range s e => v ≥ max lo s && v ≤ min hi e
    | .Algebraic a op y => v ≥ 1 && v ≤ hi && algMatches a op y 1 hi v

/-! Sweep-line utilities of `src/utils/sweepLine.ts`. -/

/-- Event of the sweep-line algorithms (`SweepEvent`). -/
structure SweepEvent where
  time : Int
  isStart : Bool
  blockIndex : Nat
  deriving Repr, DecidableEq

/-- Event comparator: time ascending, `START` before `END` at equal times
(`events.sort(...)`, a stable sort). -/
def eventLe (a b : SweepEvent) : Bool :=
  a.time < b.time || (a.time == b.time && (a.isStart || !b.isStart))

/-- Event list produced by the nested `forEach` loops: for each block, for
each range, a `START` at `range.start` and an `END` at `range.end + 1`. -/
def sweepEvents (blocks : List (List DateTimeRange)) : List SweepEvent :=
  (blocks.enum.map fun p =>
    p.2.flatMap fun r =>
      [⟨r.start, true, p.1⟩, ⟨r.stop + 1, false, p.1⟩]).flatten

/-- Appending a range with the adjacency-merge pattern that the source
repeats (`if (shouldMerge && result.length > 0) { if (start <= last.end + 1)
last.end = Math.max(last.end, end); else push } else push`). -/
def pushRange (shouldMerge : Bool) (result : List DateTimeRange)
    (r : DateTimeRange) : List DateTimeRange :=
  if shouldMerge then
    match result.getLast? with
    | some lastR =>
      if r.start ≤ lastR.stop + 1 then
        result.dropLast ++ [⟨lastR.start, max lastR.stop r.stop⟩]
      else
        result ++ [r]
    | none => result ++ [r]
  else
    result ++ [r]

/-- The JavaScript `Set.add` on an insertion-ordered duplicate-free list. -/
def setAdd (l : List Nat) (x : Nat) : List Nat :=
  if l.contains x then l else l ++ [x]

/-- State of the intersection sweep. -/
structure InterState where
  active : List Nat
  interStart : Option Int
  result : List DateTimeRange

/-- Embedding of `sweepLineIntersection` of `src/utils/sweepLine.ts`. -/
def sweepLineIntersection (blocks : List (List DateTimeRange))
    (shouldMerge : Bool) : List DateTimeRange :=
  if blocks.length == 0 then []
  else if blocks.any (fun b => b.length == 0) then []
  else
    let events := stableSortBy eventLe (sweepEvents blocks)
    let final := events.foldl
      (fun (st : InterState) event =>
        if event.isStart then
          let active := setAdd st.active event.blockIndex
          let interStart :=
            if active.length == blocks.length && st.interStart == none then
              some event.time
            else st.interStart
          ⟨active, interStart, st.result⟩
        else
          let st1 :=
            if st.active.length == blocks.length then
              match st.interStart with
              | some s0 =>
                let e0 := event.time - 1
                let result :=
                  if s0 ≤ e0 then pushRange shouldMerge st.result ⟨s0, e0⟩
                  else st.result
                InterState.mk st.active none result
              | none => st
            else st
          ⟨st1.active.erase event.blockIndex, st1.interStart, st1.result⟩)
      ⟨[], none, []⟩
    final.result

/-- State of the union sweep. -/
structure UnionState where
  activeCount : Int
  unionStart : Option Int
  result : List DateTimeRange

/-- Embedding of `sweepLineUnion` of `src/utils/sweepLine.ts`. -/
def sweepLineUnion (blocks : List (List DateTimeRange)) (shouldMerge : Bool) :
    List DateTimeRange :=
  if blocks.length == 0 then []
  else
    let events := stableSortBy eventLe (sweepEvents blocks)
    let final := events.foldl
      (fun (st : UnionState) event =>
        if event.isStart then
          let unionStart :=
            if st.activeCount == 0 then some event.time else st.unionStart
          ⟨st.activeCount + 1, unionStart, st.result⟩
        else
          let count := st.activeCount - 1
          if count == 0 then
            match st.unionStart with
            | some s0 =>
              let e0 := event.time - 1
              let result :=
                if s0 ≤ e0 then pushRange shouldMerge st.result ⟨s0, e0⟩
                else st.result
              ⟨count, none, result⟩
            | none => ⟨count, st.unionStart, st.result⟩
          else ⟨count, st.unionStart, st.result⟩)
      ⟨0, none, []⟩
    final.result

/-- Embedding of `sweepLineComplement` of `src/utils/sweepLine.ts`. -/
def sweepLineComplement (block : List DateTimeRange)
    (domainStart domainEnd : Int) (shouldMerge : Bool) : List DateTimeRange :=
  if block.length == 0 then [⟨domainStart, domainEnd⟩]
  else
    let step := block.foldl
      (fun (st : Int × List DateTimeRange) r =>
        let currentPos := st.1
        let result :=
          if currentPos < r.start then
            pushRange shouldMerge st.2 ⟨currentPos, r.start - 1⟩
          else st.2
        (max currentPos (r.stop + 1), result))
      (domainStart, [])
    if step.1 ≤ domainEnd then
      pushRange shouldMerge step.2 ⟨step.1, domainEnd⟩
    else
      step.2

/-! Binary searches of `src/utils/rangeIntersection.ts`.  The `while` loops
are given explicit fuel; `ranges.length + 1` steps always suffice because the
bracket `[left, right]` shrinks at every step. -/

/-- Loop of `findFirstIntersectingIndex`. -/
def findFirstAux (ranges : List DateTimeRange) (x : Int) :
    Nat → Int → Int → Int → Int
  | 0, _, _, result => result
  | fuel + 1, left, right, result =>
    if left ≤ right then
      let mid := (left + right) / 2
      let r := ranges.getD mid.toNat ⟨0, 0⟩
      if r.stop ≥ x then findFirstAux ranges x fuel left (mid - 1) mid
      else findFirstAux ranges x fuel (mid + 1) right result
    else result

/-- Embedding of `findFirstIntersectingIndex`: index of the first range whose
`end` is at least `x` (assuming ends sorted), else `-1`. -/
def findFirstIntersectingIndex (ranges : List DateTimeRange) (x : Int) : Int :=
  findFirstAux ranges x (ranges.length + 1) 0 ((ranges.length : Int) - 1) (-1)

/-- Loop of `findLastIntersectingIndex`. -/
def findLastAux (ranges : List DateTimeRange) (x : Int) :
    Nat → Int → Int → Int → Int
  | 0, _, _, result => result
  | fuel + 1, left, right, result =>
    if left ≤ right then
      let mid := (left + right) / 2
      let r := ranges.getD mid.toNat ⟨0, 0⟩
      if r.start ≤ x then findLastAux ranges x fuel (mid + 1) right mid
      else findLastAux ranges x fuel left (mid - 1) result
    else result

/-- Embedding of `findLastIntersectingIndex`: index of the last range whose
`start` is at most `x` (assuming starts sorted), else `-1`. -/
def findLastIntersectingIndex (ranges : List DateTimeRange) (x : Int) : Int :=
  findLastAux ranges x (ranges.length + 1) 0 ((ranges.length : Int) - 1) (-1)

/-- Embedding of `Field.getOptimizedRanges`: stable sort by `start`, then
coalesce touching or overlapping ranges. -/
def getOptimizedRanges (values : List DateTimeRange) : List DateTimeRange :=
  if values.length ≤ 1 then values
  else
    match stableSortBy (fun a b => a.start ≤ b.start) values with
    | [] => []
    | first :: rest =>
      let step := rest.foldl
        (fun (acc : List DateTimeRange × DateTimeRange) next =>
          if next.start ≤ acc.2.stop + 1 then
            (acc.1, ⟨acc.2.start, max acc.2.stop next.stop⟩)
          else
            (acc.1 ++ [acc.2], next))
        ([], first)
      step.1 ++ [step.2]

/-! Field evaluators.  Each translates the `evaluate` method of one field
class; the calendar walks become folds over explicit day / month / year
lists. -/

/-- List of UTC midnights visited by the day-walk loops: from the midnight of
the day containing `s` while `currentDate.getTime() <= e`, stepping one day. -/
def dayWalk (s e : Int) : List Int :=
  let d0 := utcMidnight s
  (List.range ((e - d0) / msPerDay + 1).toNat).map fun i =>
    d0 + (i : Int) * msPerDay

/-- Embedding of `TimeField.evaluate` (`src/blocks/fields/TimeField.ts`).
Time values are milliseconds from midnight with `maxValue = 86399999`. -/
def timeFieldEvaluate (values : List DateTimeRange) (own : MergeState)
    (startUnix endUnix : Int) (merge : Option Bool) : List DateTimeRange :=
  if values.length == 0 then []
  else
    let shouldMerge := resolveMerge own merge
    let processed := if shouldMerge then getOptimizedRanges values else values
    if processed.length == 0 then []
    else if (processed.headD ⟨0, 0⟩).start == 0
        && (processed.headD ⟨0, 0⟩).stop == 86399999 then
      [⟨startUnix, endUnix⟩]
    else
      (dayWalk startUnix endUnix).foldl
        (fun result dayStart =>
          processed.foldl
            (fun result r =>
              let rs := dayStart + r.start
              let re := dayStart + r.stop
              if re ≥ startUnix && rs ≤ endUnix then
                pushRange shouldMerge result ⟨max rs startUnix, min re endUnix⟩
              else result)
            result)
        []

/-- Embedding of `TimeField.evaluateTimestamp`: the time of day is computed
with the JavaScript `%` operator (truncating remainder, so negative for
pre-epoch timestamps) and tested against the raw value list. -/
def timeFieldTimestamp (values : List DateTimeRange) (unix : Int) : Bool :=
  if values.length == 0 then false
  else
    let timeOfDay := Int.tmod unix 86400000
    values.any fun r => timeOfDay ≥ r.start && timeOfDay ≤ r.stop

/-- Accumulator of the weekday / month-day walks: the open run
(`rangeStart`, `lastMatchEnd`) and the emitted list. -/
structure WalkState where
  rangeStart : Option Int
  lastMatchEnd : Option Int
  result : List DateTimeRange

/-- Embedding of `WeekDayField.evaluate`
(`src/blocks/fields/WeekDayField.ts`).  The `cache[0] === 0x7F` fast path is
the statement that all seven weekday bits of the one-byte bitmap are set. -/
def weekDayFieldEvaluate (values : List ParsedNumericValue) (own : MergeState)
    (startUnix endUnix : Int) (merge : Option Bool) : List DateTimeRange :=
  if values.length == 0 then []
  else
    let shouldMerge := resolveMerge own merge
    if (List.range 7).all (fun i => numericBit values 1 7 ((i : Int) + 1)) then
      [⟨startUnix, endUnix⟩]
    else
      let final := (dayWalk startUnix endUnix).foldl
        (fun (st : WalkState) dayStart =>
          let wd0 := getUTCDay dayStart
          let weekday := if wd0 == 0 then 7 else wd0
          if numericBit values 1 7 weekday then
            let dayEnd := min (dayStart + 86399999) endUnix
            match st.rangeStart with
            | none => ⟨some (max dayStart startUnix), some dayEnd, st.result⟩
            | some rs =>
              if shouldMerge && dayStart ≤ st.lastMatchEnd.getD 0 + 1 then
                ⟨st.rangeStart, some dayEnd, st.result⟩
              else
                ⟨some (max dayStart startUnix), some dayEnd,
                  st.result ++ [⟨rs, st.lastMatchEnd.getD 0⟩]⟩
          else
            match st.rangeStart with
            | some rs => ⟨none, none, st.result ++ [⟨rs, st.lastMatchEnd.getD 0⟩]⟩
            | none => st)
        ⟨none, none, []⟩
      match final.rangeStart, final.lastMatchEnd with
      | some rs, some lm => final.result ++ [⟨rs, min lm endUnix⟩]
      | _, _ => final.result

/-- Embedding of `WeekDayField.evaluateTimestamp` (ISO weekday: Sunday is 7). -/
def weekDayFieldTimestamp (values : List ParsedNumericValue) (unix : Int) :
    Bool :=
  if values.length == 0 then false
  else
    let wd0 := getUTCDay unix
    let weekday := if wd0 == 0 then 7 else wd0
    iterativeParsedValueCheck values weekday 1 7

/-- Embedding of `MonthDayField.evaluate`
(`src/blocks/fields/MonthDayField.ts`).  The fast path tests that all 31
bits of the four-byte bitmap are set. -/
def monthDayFieldEvaluate (values : List ParsedNumericValue)
    (own : MergeState) (startUnix endUnix : Int) (merge : Option Bool) :
    List DateTimeRange :=
  if values.length == 0 then []
  else
    let shouldMerge := resolveMerge own merge
    if (List.range 31).all (fun i => numericBit values 1 31 ((i : Int) + 1)) then
      [⟨startUnix, endUnix⟩]
    else
      let final := (dayWalk startUnix endUnix).foldl
        (fun (st : WalkState) dayStart =>
          let day := getUTCDate dayStart
          if numericBit values 1 31 day then
            let dayEnd := min (dayStart + 86399999) endUnix
            if shouldMerge then
              match st.rangeStart with
              | none => ⟨some (max dayStart startUnix), some dayEnd, st.result⟩
              | some rs =>
                if dayStart ≤ st.lastMatchEnd.getD 0 + 1 then
                  ⟨st.rangeStart, some dayEnd, st.result⟩
                else
                  ⟨some (max dayStart startUnix), some dayEnd,
                    st.result ++ [⟨rs, st.lastMatchEnd.getD 0⟩]⟩
            else
              ⟨st.rangeStart, st.lastMatchEnd,
                st.result ++ [⟨max dayStart startUnix, dayEnd⟩]⟩
          else if shouldMerge then
            match st.rangeStart with
            | some rs =>
              ⟨none, st.lastMatchEnd, st.result ++ [⟨rs, st.lastMatchEnd.getD 0⟩]⟩
            | none => st
          else st)
        ⟨none, none, []⟩
      if shouldMerge then
        match final.rangeStart, final.lastMatchEnd with
        | some rs, some lm => final.result ++ [⟨rs, min lm endUnix⟩]
        | _, _ => final.result
      else final.result

/-- Embedding of `MonthDayField.evaluateTimestamp`. -/
def monthDayFieldTimestamp (values : List ParsedNumericValue) (unix : Int) :
    Bool :=
  if values.length == 0 then false
  else iterativeParsedValueCheck values (getUTCDate unix) 1 31

/-- Byte 0 of the `MonthField` bitmap (months 1-8), the value the fast-path
check compares against `0xFFF` — a comparison that can never succeed because
a byte is at most `0xFF` (the spec records this as the dead fast path). -/
def monthCacheByte0 (values : List ParsedNumericValue) : Int :=
  (List.range 8).foldl
    (fun (acc : Int) (i : Nat) =>
      if numericBit values 1 12 (Int.ofNat i + 1) then
        acc + Int.ofNat (Nat.pow 2 i)
      else acc)
    0

/-- Accumulator of the month / year walks (`rangeStart`, `prevEnd`). -/
structure MergeRunState where
  rangeStart : Option Int
  prevEnd : Option Int
  result : List DateTimeRange

/-- List of month indices (`yearIdx * 12 + monthIdx`) walked by
`MonthField.evaluate`. -/
def monthWalk (s e : Int) : List Int :=
  let startIdx := getUTCFullYear s * 12 + getUTCMonth s
  let endIdx := getUTCFullYear e * 12 + getUTCMonth e
  (List.range (endIdx + 1 - startIdx).toNat).map fun i => startIdx + (i : Int)

/-- Embedding of `MonthField.evaluate` (the new-tree `MonthField` of the
repository).  `monthIdx % 12` is the JavaScript truncating remainder, so a
negative index (years before 1 BCE in the walk) gives a negative month, which
indexes `activeMonths` out of range and reads as inactive. -/
def monthFieldEvaluate (values : List ParsedNumericValue) (own : MergeState)
    (startUnix endUnix : Int) (merge : Option Bool) : List DateTimeRange :=
  if values.length == 0 then []
  else
    let shouldMerge := resolveMerge own merge
    if monthCacheByte0 values == 0xFFF then [⟨startUnix, endUnix⟩]
    else
      let final := (monthWalk startUnix endUnix).foldl
        (fun (st : MergeRunState) monthIdx =>
          let year := monthIdx / 12
          let monthT := Int.tmod monthIdx 12
          let isActive :=
            if monthT < 0 then false else numericBit values 1 12 (monthT + 1)
          let firstDay := dateUTC year monthT 1
          let lastDay := getUTCDate (dateUTC year (monthT + 1) 0)
          let monthStart := max firstDay startUnix
          let monthEnd := min (dateUTC year monthT lastDay 23 59 59 999) endUnix
          if monthEnd < startUnix || monthStart > endUnix then st
          else if isActive then
            if shouldMerge then
              ⟨some (st.rangeStart.getD monthStart), some monthEnd, st.result⟩
            else
              ⟨st.rangeStart, st.prevEnd, st.result ++ [⟨monthStart, monthEnd⟩]⟩
          else if shouldMerge then
            match st.rangeStart with
            | some rs => ⟨none, st.prevEnd, st.result ++ [⟨rs, st.prevEnd.getD 0⟩]⟩
            | none => st
          else st)
        ⟨none, none, []⟩
      if shouldMerge then
        match final.rangeStart, final.prevEnd with
        | some rs, some pe => final.result ++ [⟨rs, pe⟩]
        | _, _ => final.result
      else final.result

/-- Embedding of `MonthField.evaluateTimestamp`. -/
def monthFieldTimestamp (values : List ParsedNumericValue) (unix : Int) :
    Bool :=
  if values.length == 0 then false
  else iterativeParsedValueCheck values (getUTCMonth unix + 1) 1 12

/-- List of years walked by `YearField.evaluate`. -/
def yearWalk (s e : Int) : List Int :=
  let sy := getUTCFullYear s
  let ey := getUTCFullYear e
  (List.range (ey + 1 - sy).toNat).map fun i => sy + (i : Int)

/-- Embedding of `YearField.evaluate` (the `YearField` class shipped with
`src/blocks/fields`).  Activity is tested with
`iterativeParsedValueCheck(values, year, 1, 9999)`. -/
def yearFieldEvaluate (values : List ParsedNumericValue) (own : MergeState)
    (startUnix endUnix : Int) (merge : Option Bool) : List DateTimeRange :=
  if values.length == 0 then []
  else
    let shouldMerge := resolveMerge own merge
    let final := (yearWalk startUnix endUnix).foldl
      (fun (st : MergeRunState) year =>
        let isActive := iterativeParsedValueCheck values year 1 9999
        let yearStart := max (dateUTC year 0 1) startUnix
        let yearEnd := min (dateUTC year 11 31 23 59 59 999) endUnix
        if isActive then
          if shouldMerge then
            ⟨some (st.rangeStart.getD yearStart), some yearEnd, st.result⟩
          else
            ⟨st.rangeStart, st.prevEnd, st.result ++ [⟨yearStart, yearEnd⟩]⟩
        else if shouldMerge then
          match st.rangeStart with
          | some rs => ⟨none, st.prevEnd, st.result ++ [⟨rs, st.prevEnd.getD 0⟩]⟩
          | none => st
        else st)
      ⟨none, none, []⟩
    if shouldMerge then
      match final.rangeStart, final.prevEnd with
      | some rs, some pe => final.result ++ [⟨rs, pe⟩]
      | _, _ => final.result
    else final.result

/-- Embedding of `YearField.evaluateTimestamp`.  The source reads the year
with the local-time `getFullYear()`; the embedding assumes a UTC environment
(all repository tests run in UTC). -/
def yearFieldTimestamp (values : List ParsedNumericValue) (unix : Int) :
    Bool :=
  if values.length == 0 then false
  else
    let year := getUTCFullYear unix
    iterativeParsedValueCheck values year (year - 1) (year + 1)

/-- Embedding of `DateField.evaluate`: optional pre-merge, sort, binary
search for the intersecting slice, then per-element clipping. -/
def dateFieldEvaluate (values : List DateTimeRange) (own : MergeState)
    (startUnix endUnix : Int) (merge : Option Bool) : List DateTimeRange :=
  if values.length == 0 then []
  else
    let shouldMerge := resolveMerge own merge
    let processed0 := if shouldMerge then getOptimizedRanges values else values
    if processed0.length == 0 then []
    else
      let processed :=
        if shouldMerge then processed0
        else stableSortBy (fun a b => a.start ≤ b.start) processed0
      if (processed.headD ⟨0, 0⟩).start > endUnix
          || ((processed.getLast?).getD ⟨0, 0⟩).stop < startUnix then []
      else
        let startIndex := findFirstIntersectingIndex processed startUnix
        if startIndex == -1 then []
        else
          let endIndex := findLastIntersectingIndex processed endUnix
          if endIndex == -1 || endIndex < startIndex then []
          else
            ((processed.drop startIndex.toNat).take
                (endIndex + 1 - startIndex).toNat).map fun r =>
              ⟨max startUnix r.start, min endUnix r.stop⟩

/-- Embedding of `DateField.evaluateTimestamp` (linear membership). -/
def dateFieldTimestamp (values : List DateTimeRange) (unix : Int) : Bool :=
  if values.length == 0 then false
  else values.any fun r => unix ≥ r.start && unix ≤ r.stop

/-- Embedding of `DateTimeField.evaluate`: optional pre-merge, sort, boundary
check, filter out ranges outside the domain, clip the rest. -/
def dateTimeFieldEvaluate (values : List DateTimeRange) (own : MergeState)
    (startUnix endUnix : Int) (merge : Option Bool) : List DateTimeRange :=
  if values.length == 0 then []
  else
    let shouldMerge := resolveMerge own merge
    let processed0 := if shouldMerge then getOptimizedRanges values else values
    if processed0.length == 0 then []
    else
      let processed :=
        if shouldMerge then processed0
        else stableSortBy (fun a b => a.start ≤ b.start) processed0
      if (processed.headD ⟨0, 0⟩).start > endUnix
          || ((processed.getLast?).getD ⟨0, 0⟩).stop < startUnix then []
      else
        let kept := processed.filter fun r =>
          !(r.stop < startUnix || r.start > endUnix)
        if kept.length == 0 then []
        else kept.map fun r => ⟨max startUnix r.start, min endUnix r.stop⟩

/-- Embedding of `DateTimeField.evaluateTimestamp` (linear membership). -/
def dateTimeFieldTimestamp (values : List DateTimeRange) (unix : Int) : Bool :=
  if values.length == 0 then false
  else values.any fun r => unix ≥ r.start && unix ≤ r.stop

/-! Block evaluation.  `evalBlock` is the dispatch of `IBlock.evaluate`
through the class hierarchy; the fuel argument makes the mutual recursion
through `Reference` and the child lists total.  `evalBlockWith` is the same
evaluator parameterised by the policy that chooses which `merge` argument the
children receive; it exists to state and settle the merge-propagation claim. -/

/-- Child loop of `AndBlock.evaluate`: evaluate children in order, abort on
the first error, short-circuit to `none` (meaning the whole AND returns `[]`)
on the first empty child result. -/
def andChildren (evalC : Block → Except EvalError (List DateTimeRange)) :
    List Block → Except EvalError (Option (List (List DateTimeRange)))
  | [] => .ok (some [])
  | b :: rest =>
    match evalC b with
    | .error err => .error err
    | .ok v =>
      if v.length == 0 then .ok none
      else
        match andChildren evalC rest with
        | .error err => .error err
        | .ok none => .ok none
        | .ok (some vs) => .ok (some (v :: vs))

/-- Child loop of `OrBlock.evaluate`: evaluate children in order, abort on
the first error, keep the non-empty results. -/
def orChildren (evalC : Block → Except EvalError (List DateTimeRange)) :
    List Block → Except EvalError (List (List DateTimeRange))
  | [] => .ok []
  | b :: rest =>
    match evalC b with
    | .error err => .error err
    | .ok v =>
      match orChildren evalC rest with
      | .error err => .error err
      | .ok vs => .ok (if v.length > 0 then v :: vs else vs)

/-- Child loop of `AndOperator.evaluateTimestamp` (short-circuit on false). -/
def andChildrenTs (f : Block → Except EvalError Bool) :
    List Block → Except EvalError Bool
  | [] => .ok true
  | b :: rest =>
    match f b with
    | .error err => .error err
    | .ok false => .ok false
    | .ok true => andChildrenTs f rest

/-- Child loop of `OrBlock.evaluateTimestamp` (short-circuit on true). -/
def orChildrenTs (f : Block → Except EvalError Bool) :
    List Block → Except EvalError Bool
  | [] => .ok false
  | b :: rest =>
    match f b with
    | .error err => .error err
    | .ok true => .ok true
    | .ok false => orChildrenTs f rest

/-- Embedding of `IBlock.evaluate` over the whole hierarchy.  Conditions
resolve their own `shouldMerge` and apply it to the sweep-line combination,
but pass the incoming `merge` argument unchanged to their children;
`Reference` passes its resolved `shouldMerge` to the referenced block. -/
def evalBlock : Nat → Block → Int → Int → Option Registry → Option Bool →
    Except EvalError (List DateTimeRange)
  | 0, _, _, _, _, _ => .error .noFuel
  | fuel + 1, b, s, e, reg, merge =>
    match b with
    | .time values own => .ok (timeFieldEvaluate values own s e merge)
    | .weekDay values own => .ok (weekDayFieldEvaluate values own s e merge)
    | .month values own => .ok (monthFieldEvaluate values own s e merge)
    | .monthDay values own => .ok (monthDayFieldEvaluate values own s e merge)
    | .year values own => .ok (yearFieldEvaluate values own s e merge)
    | .dateF values own => .ok (dateFieldEvaluate values own s e merge)
    | .dateTime values own => .ok (dateTimeFieldEvaluate values own s e merge)
    | .ref id own =>
      match reg with
      | none => .error (.referenceNoSchedule id)
      | some registry =>
        match registry.lookup id with
        | none => .error (.referenceNotFound id)
        | some referenced =>
          evalBlock fuel referenced s e reg (some (resolveMerge own merge))
    | .and children own =>
      if children.length == 0 then .ok []
      else
        match andChildren (fun c => evalBlock fuel c s e reg merge)
            (sortByGroup children) with
        | .error err => .error err
        | .ok none => .ok []
        | .ok (some results) =>
          .ok (sweepLineIntersection results (resolveMerge own merge))
    | .or children own =>
      if children.length == 0 then .ok []
      else
        match orChildren (fun c => evalBlock fuel c s e reg merge)
            (sortByGroup children) with
        | .error err => .error err
        | .ok results =>
          if results.length == 0 then .ok []
          else .ok (sweepLineUnion results (resolveMerge own merge))
    | .not child own =>
      match child with
      | none => .ok [⟨s, e⟩]
      | some c =>
        match evalBlock fuel c s e reg merge with
        | .error err => .error err
        | .ok v =>
          if v.length == 0 then .ok [⟨s, e⟩]
          else .ok (sweepLineComplement v s e (resolveMerge own merge))

/-- Merge argument that the source conditions hand to their children: the raw
caller argument, unchanged. -/
def mergeArgRaw (_own : MergeState) (merge : Option Bool) : Option Bool :=
  merge

/-- Merge argument described by the specification: the resolved effective
merge of the node. -/
def mergeArgResolved (own : MergeState) (merge : Option Bool) : Option Bool :=
  some (resolveMerge own merge)

/-- The block evaluator parameterised by the merge-propagation policy:
`condChild` chooses the merge argument that `and`/`or`/`not` hand to their
children, `refChild` the one a `Reference` hands to the referenced block.
Everything else is identical to `evalBlock`. -/
def evalBlockWith (condChild refChild : MergeState → Option Bool → Option Bool) :
    Nat → Block → Int → Int → Option Registry → Option Bool →
    Except EvalError (List DateTimeRange)
  | 0, _, _, _, _, _ => .error .noFuel
  | fuel + 1, b, s, e, reg, merge =>
    match b with
    | .time values own => .ok (timeFieldEvaluate values own s e merge)
    | .weekDay values own => .ok (weekDayFieldEvaluate values own s e merge)
    | .month values own => .ok (monthFieldEvaluate values own s e merge)
    | .monthDay values own => .ok (monthDayFieldEvaluate values own s e merge)
    | .year values own => .ok (yearFieldEvaluate values own s e merge)
    | .dateF values own => .ok (dateFieldEvaluate values own s e merge)
    | .dateTime values own => .ok (dateTimeFieldEvaluate values own s e merge)
    | .ref id own =>
      match reg with
      | none => .error (.referenceNoSchedule id)
      | some registry =>
        match registry.lookup id with
        | none => .error (.referenceNotFound id)
        | some referenced =>
          evalBlockWith condChild refChild fuel referenced s e reg
            (refChild own merge)
    | .and children own =>
      if children.length == 0 then .ok []
      else
        match andChildren
            (fun c => evalBlockWith condChild refChild fuel c s e reg
              (condChild own merge))
            (sortByGroup children) with
        | .error err => .error err
        | .ok none => .ok []
        | .ok (some results) =>
          .ok (sweepLineIntersection results (resolveMerge own merge))
    | .or children own =>
      if children.length == 0 then .ok []
      else
        match orChildren
            (fun c => evalBlockWith condChild refChild fuel c s e reg
              (condChild own merge))
            (sortByGroup children) with
        | .error err => .error err
        | .ok results =>
          if results.length == 0 then .ok []
          else .ok (sweepLineUnion results (resolveMerge own merge))
    | .not child own =>
      match child with
      | none => .ok [⟨s, e⟩]
      | some c =>
        match evalBlockWith condChild refChild fuel c s e reg
            (condChild own merge) with
        | .error err => .error err
        | .ok v =>
          if v.length == 0 then .ok [⟨s, e⟩]
          else .ok (sweepLineComplement v s e (resolveMerge own merge))

/-- Embedding of `IBlock.evaluateTimestamp` over the whole hierarchy.
`AndOperator` sorts its children by `blockGroup` before the loop, `OrBlock`
does not; `NotBlock` negates; `Reference` delegates. -/
def evalTimestamp : Nat → Block → Int → Option Registry →
    Except EvalError Bool
  | 0, _, _, _ => .error .noFuel
  | fuel + 1, b, unix, reg =>
    match b with
    | .time values _ => .ok (timeFieldTimestamp values unix)
    | .weekDay values _ => .ok (weekDayFieldTimestamp values unix)
    | .month values _ => .ok (monthFieldTimestamp values unix)
    | .monthDay values _ => .ok (monthDayFieldTimestamp values unix)
    | .year values _ => .ok (yearFieldTimestamp values unix)
    | .dateF values _ => .ok (dateFieldTimestamp values unix)
    | .dateTime values _ => .ok (dateTimeFieldTimestamp values unix)
    | .ref id _ =>
      match reg with
      | none => .error (.referenceNoSchedule id)
      | some registry =>
        match registry.lookup id with
        | none => .error (.referenceNotFound id)
        | some referenced => evalTimestamp fuel referenced unix reg
    | .and children _ =>
      if children.length == 0 then .ok true
      else
        andChildrenTs (fun c => evalTimestamp fuel c unix reg)
          (sortByGroup children)
    | .or children _ =>
      if children.length == 0 then .ok false
      else orChildrenTs (fun c => evalTimestamp fuel c unix reg) children
    | .not child _ =>
      match child with
      | none => .ok true
      | some c =>
        match evalTimestamp fuel c unix reg with
        | .error err => .error err
        | .ok v => .ok (!v)

/-! Structural hashing (`src/utils/hash.ts` plus the `getHash` methods),
`JSON.stringify` of the value lists, and `clone`. -/

/-- Wrapping to a signed 32-bit integer, the effect of the JavaScript `| 0`
and `& x` coercions (`ToInt32`). -/
def toInt32 (x : Int) : Int := (x + 2147483648) % 4294967296 - 2147483648

/-- One step of the rolling hash: `hash = (hash << 5) - hash + char` followed
by `hash = hash & hash` (which truncates to 32 bits). -/
def hashStep (h : Int) (c : Nat) : Int :=
  toInt32 (toInt32 (h * 32) - h + (c : Int))

/-- Lowercase hexadecimal digit. -/
def hexDigit (n : Nat) : Char :=
  "0123456789abcdef".data.getD n '0'

/-- Digits loop of `Number.prototype.toString(16)`; 16 fuel digits cover
every 32-bit value. -/
def natToHexAux : Nat → Nat → List Char → List Char
  | 0, _, acc => acc
  | fuel + 1, n, acc =>
    if n == 0 then acc
    else natToHexAux fuel (n / 16) (hexDigit (n % 16) :: acc)

/-- Value of `n.toString(16)` for a natural number. -/
def natToHex (n : Nat) : String :=
  if n == 0 then "0" else String.mk (natToHexAux 16 n [])

/-- Embedding of `generateHash` of `src/utils/hash.ts`: 32-bit rolling hash
of the UTF-16 code units, absolute value, hexadecimal. -/
def generateHash (input : String) : String :=
  if input.length == 0 then "0"
  else natToHex (input.data.foldl (fun h c => hashStep h c.toNat) 0).natAbs

/-- Serialisation of an integer inside `JSON.stringify`. -/
def jsonInt (n : Int) : String := toString n

/-- Value of `JSON.stringify` on a `DateTimeRange` object (properties in the
creation order `start`, `end` used throughout the source). -/
def jsonRange (r : DateTimeRange) : String :=
  "\x7b\"start\":" ++ jsonInt r.start ++ ",\"end\":" ++ jsonInt r.stop ++ "\x7d"

/-- Value of `JSON.stringify` on a `ParsedNumericValue` object (properties in
the creation order of the parser actions). -/
def jsonPNV : ParsedNumericValue → String
  | .Number v => "\x7b\"type\":\"Number\",\"value\":" ++ jsonInt v ++ "\x7d"
  | .Range s e =>
    "\x7b\"type\":\"Range\",\"start\":" ++ jsonInt s ++ ",\"end\":"
      ++ jsonInt e ++ "\x7d"
  | .Algebraic a op y =>
    "\x7b\"type\":\"Algebraic\",\"coefficientN\":" ++ jsonInt a
      ++ ",\"operator\":\"" ++ (if op == AlgOp.plus then "+" else "-")
      ++ "\",\"constantY\":" ++ jsonInt y ++ "\x7d"

/-- Comma join of serialised array elements. -/
def joinComma : List String → String
  | [] => ""
  | [x] => x
  | x :: rest => x ++ "," ++ joinComma rest

/-- Value of `JSON.stringify` on an array given the serialised elements. -/
def jsonArr (elems : List String) : String :=
  "[" ++ joinComma elems ++ "]"

/-- Hash base string of a field:
`${this.constructor.name}:${this.merge}:${JSON.stringify(this.values)}`
(`Field.getHash` in `src/blocks/fields/Field.ts`). -/
def fieldBase (name : String) (m : MergeState) (valuesJson : List String) :
    String :=
  name ++ ":" ++ toString m.toNum ++ ":" ++ jsonArr valuesJson

/-- Hash base string of a condition:
`${this.constructor.name}:${this.merge}:${childHashes}` where the child
hashes are joined with `,` for `BinaryOperator` and the single child hash (or
`"null"`) is used for `UnaryOperator`. -/
def condBase (name : String) (m : MergeState) (childPart : String) : String :=
  name ++ ":" ++ toString m.toNum ++ ":" ++ childPart

/-- The hash base string consumed by `generateHash` for every block kind.
Class names follow `this.constructor.name`: `TimeField`, `WeekDayField`,
`MonthField`, `MonthDayField`, `YearField`, `DateField`, `DateTimeField`,
`Reference`, `AndOperator`, `OrBlock`, `NotBlock`. -/
def Block.hashBase : Block → String
  | .time v m => fieldBase "TimeField" m (v.map jsonRange)
  | .weekDay v m => fieldBase "WeekDayField" m (v.map jsonPNV)
  | .month v m => fieldBase "MonthField" m (v.map jsonPNV)
  | .monthDay v m => fieldBase "MonthDayField" m (v.map jsonPNV)
  | .year v m => fieldBase "YearField" m (v.map jsonPNV)
  | .dateF v m => fieldBase "DateField" m (v.map jsonRange)
  | .dateTime v m => fieldBase "DateTimeField" m (v.map jsonRange)
  | .ref id m => condBase "Reference" m id
  | .and bs m =>
    condBase "AndOperator" m
      (String.intercalate ","
        (bs.attach.map fun c => generateHash (Block.hashBase c.1)))
  | .or bs m =>
    condBase "OrBlock" m
      (String.intercalate ","
        (bs.attach.map fun c => generateHash (Block.hashBase c.1)))
  | .not (some c) m => condBase "NotBlock" m (generateHash (Block.hashBase c))
  | .not none m => condBase "NotBlock" m "null"
  termination_by b => sizeOf b
  decreasing_by
    all_goals simp_wf
    all_goals try omega
    all_goals (have hsz := List.sizeOf_lt_of_mem c.2; omega)

/-- Embedding of `getHash` (memoisation elided: the memo is invalidated on
every mutation, so the observable value is a pure function of the block). -/
def Block.getHash (b : Block) : String := generateHash b.hashBase

/-- Embedding of `clone` across the hierarchy.  Every `clone` implementation
rebuilds the node from its values or cloned children without copying the
merge state, so the copy always carries `MergeState.DEFAULT`. -/
def Block.clone : Block → Block
  | .time v _ => .time v .DEFAULT
  | .weekDay v _ => .weekDay v .DEFAULT
  | .month v _ => .month v .DEFAULT
  | .monthDay v _ => .monthDay v .DEFAULT
  | .year v _ => .year v .DEFAULT
  | .dateF v _ => .dateF v .DEFAULT
  | .dateTime v _ => .dateTime v .DEFAULT
  | .ref id _ => .ref id .DEFAULT
  | .and bs _ => .and (bs.attach.map fun c => Block.clone c.1) .DEFAULT
  | .or bs _ => .or (bs.attach.map fun c => Block.clone c.1) .DEFAULT
  | .not (some c) _ => .not (some (Block.clone c)) .DEFAULT
  | .not none _ => .not none .DEFAULT
  termination_by b => sizeOf b
  decreasing_by
    all_goals simp_wf
    all_goals try omega
    all_goals (have hsz := List.sizeOf_lt_of_mem c.2; omega)

/-- Whether every node of a block carries `MergeState.DEFAULT`. -/
def Block.allDefault : Block → Bool
  | .time _ m | .weekDay _ m | .month _ m | .monthDay _ m | .year _ m
  | .dateF _ m | .dateTime _ m | .ref _ m => m == .DEFAULT
  | .and bs m =>
    m == .DEFAULT && bs.attach.all fun c => Block.allDefault c.1
  | .or bs m =>
    m == .DEFAULT && bs.attach.all fun c => Block.allDefault c.1
  | .not (some c) m => m == .DEFAULT && Block.allDefault c
  | .not none m => m == .DEFAULT
  termination_by b => sizeOf b
  decreasing_by
    all_goals simp_wf
    all_goals try omega
    all_goals (have hsz := List.sizeOf_lt_of_mem c.2; omega)

/-! Interval cache (`ScheduleCache` in the source).  Keys are the strings
`${block.getHash()}_${startUnix}_${endUnix}`; because the hexadecimal hash
contains no underscore, the key is injective in the triple and the prefix
test `key.startsWith(hash + "_")` holds exactly for keys with the same hash,
so the embedding keys entries by the triple directly.  The JavaScript `Map`
is an association list in insertion order; `Map.set` overwrites in place. -/

/-- Cache key triple. -/
structure CacheKey where
  hash : String
  startUnix : Int
  stopUnix : Int
  deriving Repr, DecidableEq

/-- Embedding of `CacheEntry`. -/
structure CacheEntry where
  ranges : List DateTimeRange
  startUnix : Int
  stopUnix : Int
  lastAccessed : Int
  deriving Repr, DecidableEq

/-- Embedding of the `ScheduleCache` state (entries in insertion order plus
the two configuration limits, defaults 10 and 10000). -/
structure ScheduleCache where
  entries : List (CacheKey × CacheEntry)
  maxSize : Nat
  maxRangesPerEntry : Nat
  deriving Repr, DecidableEq

/-- Fresh cache with the given options. -/
def ScheduleCache.empty (maxSize : Nat := 10) (maxRangesPerEntry : Nat := 10000) :
    ScheduleCache :=
  ⟨[], maxSize, maxRangesPerEntry⟩

/-- Insertion-order `Map.set`. -/
def mapSet {β : Type} : List (CacheKey × β) → CacheKey → β → List (CacheKey × β)
  | [], k, v => [(k, v)]
  | (k0, v0) :: rest, k, v =>
    if k0 == k then (k, v) :: rest else (k0, v0) :: mapSet rest k v

/-- The `Map.delete` of the first (unique) entry with the given key. -/
def mapDelete {β : Type} : List (CacheKey × β) → CacheKey → List (CacheKey × β)
  | [], _ => []
  | (k0, v0) :: rest, k =>
    if k0 == k then rest else (k0, v0) :: mapDelete rest k

/-- Embedding of `ScheduleCache.canExpand`. -/
def canExpand (cachedStart cachedStop newStart newEnd : Int) : Bool :=
  newStart ≤ cachedStart && newEnd ≥ cachedStop

/-- Embedding of `ScheduleCache.canExtract`. -/
def canExtract (cachedStart cachedStop newStart newEnd : Int) : Bool :=
  newStart ≥ cachedStart && newEnd ≤ cachedStop

/-- Embedding of `ScheduleCache.extractSubset`: binary search for the
intersecting slice, then per-element clipping. -/
def extractSubset (ranges : List DateTimeRange) (newStart newEnd : Int) :
    List DateTimeRange :=
  if ranges.length == 0 then []
  else
    let startIndex := findFirstIntersectingIndex ranges newStart
    if startIndex == -1 then []
    else
      let endIndex := findLastIntersectingIndex ranges newEnd
      if endIndex == -1 || endIndex < startIndex then []
      else
        ((ranges.drop startIndex.toNat).take
            (endIndex + 1 - startIndex).toNat).foldl
          (fun acc r =>
            let is := max r.start newStart
            let ie := min r.stop newEnd
            if is ≤ ie then acc ++ [⟨is, ie⟩] else acc)
          []

/-- Bump of `entry.lastAccessed = Date.now()` for one key. -/
def bumpAccessed (entries : List (CacheKey × CacheEntry)) (k : CacheKey)
    (now : Int) : List (CacheKey × CacheEntry) :=
  entries.map fun p =>
    if p.1 == k then (p.1, { p.2 with lastAccessed := now }) else p

/-- Embedding of `ScheduleCache.get`: exact key first (returning the stored
range list), then the first same-hash entry wide enough for subset
extraction, else a miss.  `now` stands for `Date.now()`. -/
def cacheGet (c : ScheduleCache) (hash : String) (startUnix endUnix now : Int) :
    Option (List DateTimeRange) × ScheduleCache :=
  let exactKey : CacheKey := ⟨hash, startUnix, endUnix⟩
  match c.entries.find? (fun p => p.1 == exactKey) with
  | some p =>
    (some p.2.ranges, { c with entries := bumpAccessed c.entries exactKey now })
  | none =>
    match c.entries.find?
        (fun p =>
          p.1.hash == hash
            && canExtract p.2.startUnix p.2.stopUnix startUnix endUnix) with
    | some p =>
      (some (extractSubset p.2.ranges startUnix endUnix),
        { c with entries := bumpAccessed c.entries p.1 now })
    | none => (none, c)

/-- The `evictLRU` scan: smallest `lastAccessed` wins (first one on ties,
starting from `Number.MAX_SAFE_INTEGER`). -/
def evictLRU (c : ScheduleCache) : ScheduleCache :=
  if c.entries.length < c.maxSize then c
  else
    let oldest := c.entries.foldl
      (fun (acc : Option CacheKey × Int) p =>
        if p.2.lastAccessed < acc.2 then (some p.1, p.2.lastAccessed) else acc)
      (none, 9007199254740991)
    match oldest.1 with
    | some k => { c with entries := mapDelete c.entries k }
    | none => c

/-- Embedding of `ScheduleCache.set`: drop the first same-hash entry whose
stored range the new one expands, evict if full, insert a copy. -/
def cacheSet (c : ScheduleCache) (hash : String) (startUnix endUnix : Int)
    (ranges : List DateTimeRange) (now : Int) : ScheduleCache :=
  let afterDrop :=
    match c.entries.find?
        (fun p =>
          p.1.hash == hash
            && canExpand p.2.startUnix p.2.stopUnix startUnix endUnix) with
    | some p => { c with entries := mapDelete c.entries p.1 }
    | none => c
  let afterEvict := evictLRU afterDrop
  { afterEvict with
    entries := mapSet afterEvict.entries ⟨hash, startUnix, endUnix⟩
      ⟨ranges, startUnix, endUnix, now⟩ }

/-! Reference-level model of the same cache, used for the aliasing claim:
arrays are cells of an explicit store (`heap`), and a cache entry holds the
cell of its range list.  `get` on an exact hit returns the stored cell itself
(`return entry.ranges`); `set` allocates a fresh cell holding a shallow copy
(`[...ranges]`); subset extraction builds a fresh array.  Mutating a cell
models in-place mutation of the corresponding JavaScript array. -/

/-- Cache entry holding the heap cell of its ranges array. -/
structure CacheEntryH where
  rangesCell : Nat
  startUnix : Int
  stopUnix : Int
  lastAccessed : Int
  deriving Repr, DecidableEq

/-- Cache with explicit array store. -/
structure HeapCache where
  entries : List (CacheKey × CacheEntryH)
  heap : List (List DateTimeRange)
  maxSize : Nat
  deriving Repr, DecidableEq

/-- Contents of a heap cell. -/
def heapRead (heap : List (List DateTimeRange)) (cell : Nat) :
    List DateTimeRange :=
  heap.getD cell []

/-- Bump of `lastAccessed` in the reference-level model. -/
def bumpAccessedH (entries : List (CacheKey × CacheEntryH)) (k : CacheKey)
    (now : Int) : List (CacheKey × CacheEntryH) :=
  entries.map fun p =>
    if p.1 == k then (p.1, { p.2 with lastAccessed := now }) else p

/-- Reference-level `ScheduleCache.get`: an exact hit returns the cell stored
in the entry (no copy); a subset hit allocates a fresh cell for the extracted
list. -/
def heapCacheGet (c : HeapCache) (hash : String) (startUnix endUnix now : Int) :
    Option Nat × HeapCache :=
  let exactKey : CacheKey := ⟨hash, startUnix, endUnix⟩
  match c.entries.find? (fun p => p.1 == exactKey) with
  | some p =>
    (some p.2.rangesCell,
      { c with entries := bumpAccessedH c.entries exactKey now })
  | none =>
    match c.entries.find?
        (fun p =>
          p.1.hash == hash
            && canExtract p.2.startUnix p.2.stopUnix startUnix endUnix) with
    | some p =>
      (some c.heap.length,
        { c with
          entries := bumpAccessedH c.entries p.1 now
          heap := c.heap
            ++ [extractSubset (heapRead c.heap p.2.rangesCell) startUnix endUnix] })
    | none => (none, c)

/-- Reference-level `ScheduleCache.set`: stores a fresh cell holding a
shallow copy of the argument array (the eviction logic is as in `cacheSet`;
it never fires in the claims below and is elided for the drop/evict steps of
this model, which start from caches built by `heapCacheSet` itself). -/
def heapCacheSet (c : HeapCache) (hash : String) (startUnix endUnix : Int)
    (cell : Nat) (now : Int) : HeapCache :=
  let afterDrop :=
    match c.entries.find?
        (fun p =>
          p.1.hash == hash
            && canExpand p.2.startUnix p.2.stopUnix startUnix endUnix) with
    | some p => { c with entries := mapDelete c.entries p.1 }
    | none => c
  { afterDrop with
    heap := afterDrop.heap ++ [heapRead afterDrop.heap cell]
    entries := mapSet afterDrop.entries ⟨hash, startUnix, endUnix⟩
      ⟨afterDrop.heap.length, startUnix, endUnix, now⟩ }

/-- In-place mutation of the array held in a cell (e.g.
`returned[0].start = v` or `returned.length = 0` on the JavaScript side). -/
def heapCacheWrite (c : HeapCache) (cell : Nat) (v : List DateTimeRange) :
    HeapCache :=
  { c with heap := c.heap.set cell v }

/-! Embedding of the Result-returning `Schedule` class
(`src/schedule/Schedule.ts`, second variant).  `evaluate` and
`evaluateTimestamp` look the id up and THROW a `ValidationError` when it is
absent; every other outcome is returned as a `Result`.  `JSOutcome`
distinguishes the two exits. -/

/-- Exceptions thrown (not returned) by `Schedule` methods. -/
inductive ScheduleThrown where
  | validationError (id : String)
  deriving Repr, DecidableEq

/-- Outcome of calling a JavaScript method that may either throw or return. -/
inductive JSOutcome (α : Type) where
  | thrown (err : ScheduleThrown)
  | ret (value : α)
  deriving Repr, DecidableEq

/-- State of a `Schedule`: the expression registry plus its owned cache. -/
structure Schedule where
  expressions : Registry
  cache : ScheduleCache

/-- Embedding of `Schedule.evaluate` (the `Result`-returning variant):
unknown id throws; otherwise consult the cache, evaluate on a miss, cache
the result when allowed, and return a `Result`. -/
def scheduleEvaluate (fuel : Nat) (sched : Schedule) (id : String)
    (domainStart domainEnd : Int) (cacheAfter : Bool) (now : Int) :
    JSOutcome (Except EvalError (List DateTimeRange)) × Schedule :=
  match sched.expressions.lookup id with
  | none => (.thrown (.validationError id), sched)
  | some block =>
    let hash := block.getHash
    let fetched := cacheGet sched.cache hash domainStart domainEnd now
    match fetched.1 with
    | some r => (.ret (.ok r), { sched with cache := fetched.2 })
    | none =>
      match evalBlock fuel block domainStart domainEnd
          (some sched.expressions) none with
      | .error err => (.ret (.error err), { sched with cache := fetched.2 })
      | .ok ranges =>
        if cacheAfter && ranges.length ≤ fetched.2.maxRangesPerEntry then
          (.ret (.ok ranges),
            { sched with
              cache := cacheSet fetched.2 hash domainStart domainEnd ranges now })
        else (.ret (.ok ranges), { sched with cache := fetched.2 })

/-- Embedding of `Schedule.evaluateTimestamp`: unknown id throws; otherwise
the block delegation result is returned as a `Result`. -/
def scheduleEvaluateTimestamp (fuel : Nat) (sched : Schedule) (id : String)
    (timestamp : Int) : JSOutcome (Except EvalError Bool) :=
  match sched.expressions.lookup id with
  | none => .thrown (.validationError id)
  | some block => .ret (evalTimestamp fuel block timestamp (some sched.expressions))

/-! Embedding of the surface grammar (`schedule-grammar.ohm`) at the
`ValueBlock` level together with the semantic actions of
`src/parser/ExpressionParser.ts`.  The grammar is PEG (ordered choice,
greedy option); parsers read a character list and return the parsed value
plus the remaining input.  Whitespace plays no role in the inputs treated
here.  The `">"?` suffix of the time rules is consumed by the grammar but
never consulted by the actions, which compute the time purely from the digit
components — the embedding mirrors that exactly. -/

/-- Parse of one `digit`. -/
def pDigit : List Char → Option (Nat × List Char)
  | c :: rest => if c.isDigit then some (c.toNat - 48, rest) else none
  | [] => none

/-- Parse of `digit digit?` (greedy), combined with
`parseInt(d1.sourceString + d2.sourceString, 10)`. -/
def pOneTwoDigits (cs : List Char) : Option (Nat × List Char) :=
  match pDigit cs with
  | none => none
  | some (d1, rest) =>
    match pDigit rest with
    | some (d2, rest2) => some (d1 * 10 + d2, rest2)
    | none => some (d1, rest)

/-- Parse of `digit digit? digit?` (greedy), the millisecond component
(1-3 digits, not right-padded). -/
def pOneToThreeDigits (cs : List Char) : Option (Nat × List Char) :=
  match pOneTwoDigits cs with
  | none => none
  | some (v, rest) =>
    match pDigit rest with
    | some (d3, rest2) => some (v * 10 + d3, rest2)
    | none => some (v, rest)

/-- Parse of `digit+` (greedy), with the `parseInt` action. -/
def pDigitsAux : Nat → Nat → List Char → Nat × List Char
  | 0, acc, cs => (acc, cs)
  | fuel + 1, acc, cs =>
    match pDigit cs with
    | some (d, rest) => pDigitsAux fuel (acc * 10 + d) rest
    | none => (acc, cs)

/-- Parse of `digit+`. -/
def pDigits (cs : List Char) : Option (Nat × List Char) :=
  match pDigit cs with
  | some (d, rest) =>
    let step := pDigitsAux rest.length d rest
    some step
  | none => none

/-- Parse of a literal character. -/
def pChar (c : Char) : List Char → Option (Unit × List Char)
  | c0 :: rest => if c0 == c then some ((), rest) else none
  | [] => none

/-- Parse of a literal token. -/
def pToken : List Char → List Char → Option (Unit × List Char)
  | [], cs => some ((), cs)
  | t :: ts, c0 :: rest => if c0 == t then pToken ts rest else none
  | _ :: _, [] => none

/-- Consumption of the optional `">"` padding marker.  The grammar accepts
it; the actions ignore it. -/
def pPad : List Char → Bool × List Char
  | '>' :: rest => (true, rest)
  | cs => (false, cs)

/-- Parse of `MillisecondTime` with the `MillisecondTime` action
(`h*3600000 + m*60000 + s*1000 + ms`; the trailing `>` is dropped). -/
def pMillisecondTime (cs : List Char) : Option (Int × List Char) := do
  let (h, cs) ← pOneTwoDigits cs
  let (_, cs) ← pChar ':' cs
  let (m, cs) ← pOneTwoDigits cs
  let (_, cs) ← pChar ':' cs
  let (s, cs) ← pOneTwoDigits cs
  let (_, cs) ← pChar '.' cs
  let (ms, cs) ← pOneToThreeDigits cs
  let (_, cs) := pPad cs
  some (((h : Int) * 3600000 + m * 60000 + s * 1000 + ms : Int), cs)

/-- Parse of `SecondTime` with its action (the trailing `>` is dropped). -/
def pSecondTime (cs : List Char) : Option (Int × List Char) := do
  let (h, cs) ← pOneTwoDigits cs
  let (_, cs) ← pChar ':' cs
  let (m, cs) ← pOneTwoDigits cs
  let (_, cs) ← pChar ':' cs
  let (s, cs) ← pOneTwoDigits cs
  let (_, cs) := pPad cs
  some (((h : Int) * 3600000 + m * 60000 + s * 1000 : Int), cs)

/-- Parse of `MinuteTime` with its action (the trailing `>` is dropped). -/
def pMinuteTime (cs : List Char) : Option (Int × List Char) := do
  let (h, cs) ← pOneTwoDigits cs
  let (_, cs) ← pChar ':' cs
  let (m, cs) ← pOneTwoDigits cs
  let (_, cs) := pPad cs
  some (((h : Int) * 3600000 + m * 60000 : Int), cs)

/-- Parse of `HourTime` with its action (the trailing `>` is dropped). -/
def pHourTime (cs : List Char) : Option (Int × List Char) := do
  let (h, cs) ← pOneTwoDigits cs
  let (_, cs) := pPad cs
  some (((h : Int) * 3600000 : Int), cs)

/-- Parse of `Time` (ordered choice: millisecond, second, minute, hour). -/
def pTime (cs : List Char) : Option (Int × List Char) :=
  match pMillisecondTime cs with
  | some r => some r
  | none =>
    match pSecondTime cs with
    | some r => some r
    | none =>
      match pMinuteTime cs with
      | some r => some r
      | none => pHourTime cs

/-- Parse of `TimeRange = Time ".." Time`. -/
def pTimeRange (cs : List Char) : Option (DateTimeRange × List Char) := do
  let (s, cs) ← pTime cs
  let (_, cs) ← pToken ['.', '.'] cs
  let (e, cs) ← pTime cs
  some (⟨s, e⟩, cs)

/-- Tail loop of `nonemptyListOf<elem, ",">`: greedy repetition of
`("," elem)`, backtracking the whole group when the element fails. -/
def pSepTail (p : List Char → Option (α × List Char)) :
    Nat → List α → List Char → List α × List Char
  | 0, acc, cs => (acc, cs)
  | fuel + 1, acc, cs =>
    match pChar ',' cs with
    | none => (acc, cs)
    | some (_, cs1) =>
      match p cs1 with
      | none => (acc, cs)
      | some (v, cs2) => pSepTail p fuel (acc ++ [v]) cs2

/-- Parse of `nonemptyListOf<elem, ",">`. -/
def pSepList (p : List Char → Option (α × List Char)) (cs : List Char) :
    Option (List α × List Char) := do
  let (v, cs1) ← p cs
  some (pSepTail p cs1.length [v] cs1)

/-- Embedding of `checkAlgebraic` of `src/utils/value.ts`. -/
def checkAlgebraic (a y : Int) : Bool :=
  a > 0 && y ≥ 0 && a < 9999 && y < 9999

/-- Embedding of `Field.validateParsedNumeric` for a field with bounds
`[lo, hi]`. -/
def validatePNV (lo hi : Int) : ParsedNumericValue → Bool
  | .Number v => v ≥ lo && v ≤ hi
  | .Range s e => s ≥ lo && e ≤ hi && s ≤ e
  | .Algebraic a _ y => checkAlgebraic a y

/-- Embedding of `TimeField.validateValue`. -/
def validateTimeRange (r : DateTimeRange) : Bool :=
  r.start ≥ 0 && r.stop ≤ 86399999 && r.start < r.stop

/-- Embedding of `DateField.validateValue`: integral bounds-ordered range
whose start is UTC midnight and whose end is UTC 23:59:59.999. -/
def validateDateRange (r : DateTimeRange) : Bool :=
  r.start ≤ r.stop
    && getUTCHours r.start == 0 && getUTCMinutes r.start == 0
    && getUTCSeconds r.start == 0 && getUTCMilliseconds r.start == 0
    && getUTCHours r.stop == 23 && getUTCMinutes r.stop == 59
    && getUTCSeconds r.stop == 59 && getUTCMilliseconds r.stop == 999

/-- Embedding of `DateTimeField.validateValue`. -/
def validateDateTimeRange (r : DateTimeRange) : Bool :=
  r.start ≤ r.stop

/-- Parse of `ValueExpr` (ordered choice: range, algebraic, number) with the
corresponding actions. -/
def pValueExpr (cs : List Char) : Option (ParsedNumericValue × List Char) :=
  match (do
    let (s, cs1) ← pDigits cs
    let (_, cs1) ← pToken ['.', '.'] cs1
    let (e, cs1) ← pDigits cs1
    some (ParsedNumericValue.Range (s : Int) (e : Int), cs1) :
      Option (ParsedNumericValue × List Char)) with
  | some r => some r
  | none =>
    match (do
      let (n, cs1) ← pDigits cs
      let (_, cs1) ← pChar 'n' cs1
      let (opc, cs1) ←
        match cs1 with
        | '+' :: rest => some (AlgOp.plus, rest)
        | '-' :: rest => some (AlgOp.minus, rest)
        | _ => none
      let (m, cs1) ← pDigits cs1
      some (ParsedNumericValue.Algebraic (n : Int) opc (m : Int), cs1) :
        Option (ParsedNumericValue × List Char)) with
    | some r => some r
    | none =>
      match pDigits cs with
      | some (v, cs1) => some (.Number (v : Int), cs1)
      | none => none

/-- Parse of `date = dddd "-" dd "-" dd` with the `date` action
(`Date.UTC(year, month - 1, day)`). -/
def pDate (cs : List Char) : Option (Int × List Char) := do
  let (y1, cs) ← pDigit cs
  let (y2, cs) ← pDigit cs
  let (y3, cs) ← pDigit cs
  let (y4, cs) ← pDigit cs
  let (_, cs) ← pChar '-' cs
  let (m1, cs) ← pDigit cs
  let (m2, cs) ← pDigit cs
  let (_, cs) ← pChar '-' cs
  let (d1, cs) ← pDigit cs
  let (d2, cs) ← pDigit cs
  let year : Int := (y1 * 1000 + y2 * 100 + y3 * 10 + y4 : Nat)
  let month : Int := (m1 * 10 + m2 : Nat)
  let day : Int := (d1 * 10 + d2 : Nat)
  some (dateUTC year (month - 1) day, cs)

/-- Parse of `DateExpr` (range or single) with its actions. -/
def pDateExpr (cs : List Char) : Option (DateTimeRange × List Char) :=
  match (do
    let (s, cs1) ← pDate cs
    let (_, cs1) ← pToken ['.', '.'] cs1
    let (e, cs1) ← pDate cs1
    some (DateTimeRange.mk s (e + 86399999), cs1) :
      Option (DateTimeRange × List Char)) with
  | some r => some r
  | none =>
    match pDate cs with
    | some (d, cs1) => some (⟨d, d + 86399999⟩, cs1)
    | none => none

/-- Parse of `DateTime = date "T" MillisecondTime | date "T" SecondTime`
with the `DateTime` action (`datePart + timePart`). -/
def pDateTime (cs : List Char) : Option (Int × List Char) :=
  match (do
    let (d, cs1) ← pDate cs
    let (_, cs1) ← pChar 'T' cs1
    let (t, cs1) ← pMillisecondTime cs1
    some (d + t, cs1) : Option (Int × List Char)) with
  | some r => some r
  | none => do
    let (d, cs1) ← pDate cs
    let (_, cs1) ← pChar 'T' cs1
    let (t, cs1) ← pSecondTime cs1
    some (d + t, cs1)

/-- Parse of `DateTimeRange = DateTime ".." DateTime`. -/
def pDateTimeRange (cs : List Char) : Option (DateTimeRange × List Char) := do
  let (s, cs) ← pDateTime cs
  let (_, cs) ← pToken ['.', '.'] cs
  let (e, cs) ← pDateTime cs
  some (⟨s, e⟩, cs)

/-- Parse of `alnum+` (the `ReferenceId`). -/
def pAlnumAux : Nat → List Char → List Char → List Char × List Char
  | 0, acc, cs => (acc, cs)
  | fuel + 1, acc, cs =>
    match cs with
    | c :: rest =>
      if c.isAlphanum then pAlnumAux fuel (acc ++ [c]) rest else (acc, cs)
    | [] => (acc, cs)

/-- Parse of `ReferenceId = alnum+`. -/
def pReferenceId (cs : List Char) : Option (String × List Char) :=
  match cs with
  | c :: rest =>
    if c.isAlphanum then
      let step := pAlnumAux rest.length [c] rest
      some (String.mk step.1, step.2)
    else none
  | [] => none

/-- Parse of `ValueBlock` (ordered choice over the eight block forms), with
the tree-building actions: each block form builds the corresponding field
and `addValues` validates every element, so a failed validation fails the
parse (the thrown `ValidationError` is caught by `ExpressionParser.parse`). -/
def pValueBlock (cs : List Char) : Option (Block × List Char) :=
  match (do
    let (_, cs1) ← pToken ['T', '['] cs
    let (ranges, cs1) ← pSepList pTimeRange cs1
    let (_, cs1) ← pChar ']' cs1
    if ranges.all validateTimeRange then
      some (Block.time ranges .DEFAULT, cs1)
    else none : Option (Block × List Char)) with
  | some r => some r
  | none =>
  match (do
    let (_, cs1) ← pToken ['W', 'D', '['] cs
    let (vals, cs1) ← pSepList pValueExpr cs1
    let (_, cs1) ← pChar ']' cs1
    if vals.all (validatePNV 1 7) then
      some (Block.weekDay vals .DEFAULT, cs1)
    else none : Option (Block × List Char)) with
  | some r => some r
  | none =>
  match (do
    let (_, cs1) ← pToken ['D', '['] cs
    let (ranges, cs1) ← pSepList pDateExpr cs1
    let (_, cs1) ← pChar ']' cs1
    if ranges.all validateDateRange then
      some (Block.dateF ranges .DEFAULT, cs1)
    else none : Option (Block × List Char)) with
  | some r => some r
  | none =>
  match (do
    let (_, cs1) ← pToken ['M', '['] cs
    let (vals, cs1) ← pSepList pValueExpr cs1
    let (_, cs1) ← pChar ']' cs1
    if vals.all (validatePNV 1 12) then
      some (Block.month vals .DEFAULT, cs1)
    else none : Option (Block × List Char)) with
  | some r => some r
  | none =>
  match (do
    let (_, cs1) ← pToken ['M', 'D', '['] cs
    let (vals, cs1) ← pSepList pValueExpr cs1
    let (_, cs1) ← pChar ']' cs1
    if vals.all (validatePNV 1 31) then
      some (Block.monthDay vals .DEFAULT, cs1)
    else none : Option (Block × List Char)) with
  | some r => some r
  | none =>
  match (do
    let (_, cs1) ← pToken ['Y', '['] cs
    let (vals, cs1) ← pSepList pValueExpr cs1
    let (_, cs1) ← pChar ']' cs1
    if vals.all (validatePNV (-9999) 9999) then
      some (Block.year vals .DEFAULT, cs1)
    else none : Option (Block × List Char)) with
  | some r => some r
  | none =>
  match (do
    let (_, cs1) ← pToken ['D', 'T', '['] cs
    let (ranges, cs1) ← pSepList pDateTimeRange cs1
    let (_, cs1) ← pChar ']' cs1
    if ranges.all validateDateTimeRange then
      some (Block.dateTime ranges .DEFAULT, cs1)
    else none : Option (Block × List Char)) with
  | some r => some r
  | none => do
    let (_, cs1) ← pToken ['R', 'E', 'F', '['] cs
    let (id, cs1) ← pReferenceId cs1
    let (_, cs1) ← pChar ']' cs1
    some (Block.ref id .DEFAULT, cs1)

/-- Parse of a complete `ValueBlock` expression: for an input that is a
single field literal, the `Expression / ConditionExpression / ... /
PrimaryExpression` chain of the grammar delegates directly to `ValueBlock`,
so this is `parseExpression` restricted to such inputs. -/
def parseValueBlockFull (s : String) : Option Block :=
  match pValueBlock s.data with
  | some (b, []) => some b
  | _ => none

/-- Embedding of `DateField.toString`: raw millisecond pairs
(`D[start..end,...]`). -/
def dateFieldToString (values : List DateTimeRange) : String :=
  if values.length == 0 then "D[]"
  else
    "D[" ++ String.intercalate ","
      (values.map fun r => toString r.start ++ ".." ++ toString r.stop) ++ "]"

/-- Embedding of `DateTimeField.toString`: raw millisecond pairs
(`DT[start..end,...]`). -/
def dateTimeFieldToString (values : List DateTimeRange) : String :=
  if values.length == 0 then "DT[]"
  else
    "DT[" ++ String.intercalate ","
      (values.map fun r => toString r.start ++ ".." ++ toString r.stop) ++ "]"

/-! Claim theorems. -/

/-- C10: an `AndBlock` with an empty child list answers `success(true)` from
`evaluateTimestamp` for every timestamp and schedule, while its `evaluate`
answers `success([])` for every domain, registry and merge argument — the
vacuous-truth convention of timestamp evaluation diverges from interval
evaluation on the empty AND. -/
theorem c10_empty_and_vacuous_truth :
    ∀ (fuel : Nat) (st : MergeState) (t s e : Int) (reg : Option Registry)
      (m : Option Bool),
      evalTimestamp (fuel + 1) (.and [] st) t reg = .ok true
        ∧ evalBlock (fuel + 1) (.and [] st) s e reg m = .ok [] := by
  intro fuel st t s e reg m
  exact ⟨rfl, rfl⟩

/-- C1 (code bug): the claimed equivalence
`evaluateTimestamp(t) ⇔ ∃ i ∈ evaluate(s, e), i.start ≤ t ≤ i.end` fails on
pre-epoch timestamps.  For the `TimeField` `T[00:00..01:00]` over the domain
`[1969-12-31T00:00Z, 1969-12-31T01:00Z]` and `t = 1969-12-31T00:30Z`,
`evaluate` returns the single interval covering `t`, yet `evaluateTimestamp`
answers `false`, because `unix % 86400000` is the truncating JavaScript
remainder and is negative for negative `unix`. -/
theorem c1_timestamp_interval_equiv_code_bug :
    evalBlock 1 (.time [⟨0, 3600000⟩] .DEFAULT)
        (-86400000) (-82800000) none none
      = .ok [⟨-86400000, -82800000⟩]
      ∧ ((-86400000 : Int) ≤ -84600000 ∧ (-84600000 : Int) ≤ -82800000)
      ∧ evalTimestamp 1 (.time [⟨0, 3600000⟩] .DEFAULT) (-84600000) none
          = .ok false := by
  exact ⟨by decide, ⟨by decide, by decide⟩, by decide⟩

/-- C3 (code bug): the grammar consumes a trailing `>` on a time literal and
the documentation promises padding of the unspecified lower components, but
the semantic actions compute the time from the digit components alone, so
`T[9>..17>]` parses to plain `09:00:00.000 .. 17:00:00.000` and evaluating it
over the single UTC day `[Date.UTC(2024,0,1), Date.UTC(2024,0,1,23,59,59,999)]`
yields `[[Date.UTC(2024,0,1,9), Date.UTC(2024,0,1,17)]]`, not the claimed
`[[Date.UTC(2024,0,1,9,59,59,999), Date.UTC(2024,0,1,17,59,59,999)]]`. -/
theorem c3_padded_time_code_bug :
    parseValueBlockFull "T[9>..17>]"
        = some (.time [⟨32400000, 61200000⟩] .DEFAULT)
      ∧ evalBlock 1 (.time [⟨32400000, 61200000⟩] .DEFAULT)
          (dateUTC 2024 0 1) (dateUTC 2024 0 1 23 59 59 999) none none
        = .ok [⟨dateUTC 2024 0 1 9, dateUTC 2024 0 1 17⟩]
      ∧ dateUTC 2024 0 1 9 ≠ dateUTC 2024 0 1 9 59 59 999
      ∧ ([(⟨dateUTC 2024 0 1 9, dateUTC 2024 0 1 17⟩ : DateTimeRange)]
          ≠ [⟨dateUTC 2024 0 1 9 59 59 999, dateUTC 2024 0 1 17 59 59 999⟩]) := by
  exact ⟨by rfl, by decide, by decide, by decide⟩

/-- C5 (code bug): `evaluate` can return intervals that violate
`domain.start ≤ i.start ≤ i.end ≤ domain.end` and break strict sorting.  A
`DateField` holding the valid date ranges
`[Jan 1, Jan 1] , [Jan 2, Feb 20] , [Jan 3, Jan 3] , [Jan 4, Mar 1]` (2024),
evaluated with merge off over `[Jan 10, Jan 11 23:59:59.999]`, returns three
intervals whose middle one has `start > end` (its `end` even precedes the
domain) and whose starts are not strictly increasing: the binary-search slice
of `DateField.evaluate` assumes the `end`s are sorted, which sorting by
`start` alone does not give. -/
theorem c5_bounds_sorted_code_bug :
    ([(⟨1704067200000, 1704153599999⟩ : DateTimeRange),
      ⟨1704153600000, 1708473599999⟩,
      ⟨1704240000000, 1704326399999⟩,
      ⟨1704326400000, 1709337599999⟩].all validateDateRange = true)
      ∧ evalBlock 1 (.dateF
          [⟨1704067200000, 1704153599999⟩,
           ⟨1704153600000, 1708473599999⟩,
           ⟨1704240000000, 1704326399999⟩,
           ⟨1704326400000, 1709337599999⟩] .DEFAULT)
          1704844800000 1705017599999 none (some false)
        = .ok [⟨1704844800000, 1705017599999⟩,
               ⟨1704844800000, 1704326399999⟩,
               ⟨1704844800000, 1705017599999⟩]
      ∧ ((1704844800000 : Int) > 1704326399999
          ∧ (1704326399999 : Int) < 1704844800000
          ∧ ¬ ((1704844800000 : Int) < 1704844800000)) := by
  exact ⟨by decide, by decide, by decide, by decide, by decide⟩

/-- C4 (code bug): round-tripping `toString` through the parser fails for
`DateTimeField` (and `DateField`): both print raw millisecond pairs, but the
grammar requires `YYYY-MM-DD` dates (with `Thh:mm:ss` for `DT`), so the
printed form of a parsed `DT[...]` block does not parse again. -/
theorem c4_roundtrip_code_bug :
    parseValueBlockFull "DT[2024-01-01T00:00:00..2024-01-02T00:00:00]"
        = some (.dateTime [⟨1704067200000, 1704153600000⟩] .DEFAULT)
      ∧ dateTimeFieldToString [⟨1704067200000, 1704153600000⟩]
          = "DT[1704067200000..1704153600000]"
      ∧ parseValueBlockFull "DT[1704067200000..1704153600000]" = none
      ∧ parseValueBlockFull "D[2024-01-01]"
          = some (.dateF [⟨1704067200000, 1704153599999⟩] .DEFAULT)
      ∧ dateFieldToString [⟨1704067200000, 1704153599999⟩]
          = "D[1704067200000..1704153599999]"
      ∧ parseValueBlockFull "D[1704067200000..1704153599999]" = none := by
  exact ⟨by rfl, by rfl, by rfl, by rfl, by rfl, by rfl⟩

/-- C2 (counterexample): resolving the effective merge and passing the
resolved value to the children — what the claim states, realised by
`evalBlockWith mergeArgResolved mergeArgResolved` — does not coincide with
the code.  For `#(T[0:00..1:00, 1:00:00.001..2:00])` under the root default
`merge = true`, the code hands the raw `merge` down, the child `TimeField`
coalesces its two touching ranges, and the result is one interval; had the
resolved `false` been passed down, the child would keep them apart. -/
theorem c2_merge_propagation_counterexample :
    evalBlock 2
        (.and [.time [⟨0, 3600000⟩, ⟨3600001, 7200000⟩] .DEFAULT]
          .EXPLICIT_OFF) 0 86399999 none none
      = .ok [⟨0, 7200000⟩]
      ∧ evalBlockWith mergeArgResolved mergeArgResolved 2
          (.and [.time [⟨0, 3600000⟩, ⟨3600001, 7200000⟩] .DEFAULT]
            .EXPLICIT_OFF) 0 86399999 none none
        = .ok [⟨0, 3600000⟩]
      ∧ ([(⟨0, 7200000⟩ : DateTimeRange)] ≠ [⟨0, 3600000⟩]) := by
  exact ⟨by decide, by decide, by decide⟩

/-- C2 (amended): every node resolves its effective merge from its own state
and the caller argument and applies it locally, but `And`/`Or`/`Not` pass
the raw caller `merge` argument (not the resolved value) to their children,
while `Reference` passes the resolved value to the referenced block: the
evaluator coincides with the policy-parameterised evaluator instantiated
with `mergeArgRaw` for condition children and `mergeArgResolved` for
references. -/
theorem c2_merge_propagation_amended :
    ∀ (fuel : Nat) (b : Block) (s e : Int) (reg : Option Registry)
      (m : Option Bool),
      evalBlock fuel b s e reg m
        = evalBlockWith mergeArgRaw mergeArgResolved fuel b s e reg m := by
  intro fuel
  induction fuel with
  | zero => intro b s e reg m; rfl
  | succ fuel ih =>
    intro b s e reg m
    have hf : (fun c => evalBlock fuel c s e reg m)
        = fun c => evalBlockWith mergeArgRaw mergeArgResolved fuel c s e reg m :=
      funext fun c => ih c s e reg m
    cases b with
    | time v own => rfl
    | weekDay v own => rfl
    | month v own => rfl
    | monthDay v own => rfl
    | year v own => rfl
    | dateF v own => rfl
    | dateTime v own => rfl
    | ref id own =>
      cases reg with
      | none => rfl
      | some registry =>
        simp only [evalBlock, evalBlockWith, mergeArgResolved]
        cases hl : registry.lookup id with
        | none => simp only [hl]
        | some referenced =>
          simp only [hl]
          exact ih referenced s e (some registry) _
    | and children own =>
      simp only [evalBlock, evalBlockWith, mergeArgRaw, hf]
    | or children own =>
      simp only [evalBlock, evalBlockWith, mergeArgRaw, hf]
    | not child own =>
      cases child with
      | none => rfl
      | some c =>
        simp only [evalBlock, evalBlockWith, mergeArgRaw, ih]

/-- Discrimination of whether a call returned (rather than threw). -/
def JSOutcome.returnsResult : JSOutcome α → Bool
  | .thrown _ => false
  | .ret _ => true

/-- C9 (counterexample): on an unknown id, `Schedule.evaluate` and
`Schedule.evaluateTimestamp` do not return an error `Result` — they throw a
`ValidationError` (which their doc comments and the repository tests
expect). -/
theorem c9_unknown_id_counterexample :
    (scheduleEvaluate 1 ⟨[], ScheduleCache.empty⟩ "missing" 0 100 true 0).1
        = .thrown (.validationError "missing")
      ∧ JSOutcome.returnsResult
          (scheduleEvaluate 1 ⟨[], ScheduleCache.empty⟩ "missing" 0 100 true 0).1
        = false
      ∧ scheduleEvaluateTimestamp 1 ⟨[], ScheduleCache.empty⟩ "missing" 0
        = .thrown (.validationError "missing")
      ∧ JSOutcome.returnsResult
          (scheduleEvaluateTimestamp 1 ⟨[], ScheduleCache.empty⟩ "missing" 0)
        = false := by
  exact ⟨rfl, rfl, rfl, rfl⟩

/-- C9 (amended): `Schedule.evaluate` and `Schedule.evaluateTimestamp` throw
a `ValidationError` exactly when the id is not present; for a present id
every outcome — success or evaluation error — is returned as a `Result`. -/
theorem c9_unknown_id_amended :
    ∀ (fuel : Nat) (sched : Schedule) (id : String) (s e t now : Int)
      (cacheAfter : Bool),
      (sched.expressions.lookup id = none →
        (scheduleEvaluate fuel sched id s e cacheAfter now).1
            = .thrown (.validationError id)
          ∧ scheduleEvaluateTimestamp fuel sched id t
            = .thrown (.validationError id))
        ∧ (∀ b, sched.expressions.lookup id = some b →
          (∃ r, (scheduleEvaluate fuel sched id s e cacheAfter now).1 = .ret r)
            ∧ ∃ r, scheduleEvaluateTimestamp fuel sched id t = .ret r) := by
  intro fuel sched id s e t now cacheAfter
  constructor
  · intro h
    exact ⟨by simp [scheduleEvaluate, h], by simp [scheduleEvaluateTimestamp, h]⟩
  · intro b hb
    constructor
    · simp only [scheduleEvaluate, hb]
      cases hc : (cacheGet sched.cache b.getHash s e now).1 with
      | some r => exact ⟨.ok r, by simp [hc]⟩
      | none =>
        cases hv : evalBlock fuel b s e (some sched.expressions) none with
        | error err => exact ⟨.error err, by simp [hc, hv]⟩
        | ok ranges =>
          by_cases hca :
              (cacheAfter && decide (ranges.length
                ≤ (cacheGet sched.cache b.getHash s e now).2.maxRangesPerEntry)) = true
          · exact ⟨.ok ranges, by simp only [hc, hv]; simp [hca]⟩
          · exact ⟨.ok ranges, by simp only [hc, hv]; simp [hca]⟩
    · exact ⟨evalTimestamp fuel b t (some sched.expressions),
        by simp [scheduleEvaluateTimestamp, hb]⟩

/-- C9 (witness): the amended dichotomy at a concrete schedule — the unknown
id `x` throws, the registered id `a` returns a `Result`. -/
theorem c9_unknown_id_witness :
    ((⟨[("a", .time [⟨0, 3600000⟩] .DEFAULT)], ScheduleCache.empty⟩ :
        Schedule).expressions.lookup "a"
      = some (.time [⟨0, 3600000⟩] .DEFAULT))
      ∧ ((⟨[], ScheduleCache.empty⟩ : Schedule).expressions.lookup "x" = none)
      ∧ (scheduleEvaluate 1 ⟨[], ScheduleCache.empty⟩ "x" 0 100 true 0).1
          = .thrown (.validationError "x")
      ∧ ∃ r, (scheduleEvaluate 1
          ⟨[("a", .time [⟨0, 3600000⟩] .DEFAULT)], ScheduleCache.empty⟩
          "a" 0 100 true 0).1 = .ret r := by
  refine ⟨by rfl, by rfl, ?_, ?_⟩
  · exact ((c9_unknown_id_amended 1 ⟨[], ScheduleCache.empty⟩ "x" 0 100 0 0
      true).1 (by rfl)).1
  · exact ((c9_unknown_id_amended 1
      ⟨[("a", .time [⟨0, 3600000⟩] .DEFAULT)], ScheduleCache.empty⟩
      "a" 0 100 0 0 true).2 _ (by rfl)).1

/-- The insertion-order `Map.set` leaves its key retrievable with exactly the
new value, regardless of the previous contents. -/
theorem find?_mapSet_self {β : Type} (l : List (CacheKey × β)) (k : CacheKey)
    (v : β) :
    List.find? (fun p => p.1 == k) (mapSet l k v) = some (k, v) := by
  induction l with
  | nil => simp [mapSet]
  | cons hd tl ih =>
    obtain ⟨k0, v0⟩ := hd
    by_cases h : k0 == k
    · simp [mapSet, h]
    · simp only [mapSet, h]
      rw [if_neg (by simp [h])]
      rw [List.find?_cons_of_neg _ (by simpa using h)]
      exact ih

/-- Bumping `lastAccessed` of key `k` does not move or change which entry an
exact lookup of `k` finds, except for the timestamp. -/
theorem find?_bumpAccessedH (l : List (CacheKey × CacheEntryH)) (k : CacheKey)
    (now : Int) (v : CacheEntryH)
    (h : List.find? (fun p => p.1 == k) l = some (k, v)) :
    List.find? (fun p => p.1 == k) (bumpAccessedH l k now)
      = some (k, { v with lastAccessed := now }) := by
  induction l with
  | nil => simp at h
  | cons hd tl ih =>
    obtain ⟨k0, v0⟩ := hd
    by_cases hk : (k0 == k) = true
    · rw [List.find?_cons_of_pos _ (by simpa using hk)] at h
      rw [Option.some.injEq, Prod.mk.injEq] at h
      obtain ⟨h1, h2⟩ := h
      subst h1
      subst h2
      simp only [bumpAccessedH, List.map_cons]
      rw [if_pos (by simp)]
      exact List.find?_cons_of_pos _ (by simp)
    · rw [List.find?_cons_of_neg _ (by simpa using hk)] at h
      simp only [bumpAccessedH, List.map_cons]
      rw [if_neg (by simpa using hk)]
      rw [List.find?_cons_of_neg _ (by simpa using hk)]
      exact ih h

/-- C7 (counterexample): the array returned by an exact-key cache hit is the
stored array itself, so mutating it rewrites the cached entry.  Concretely:
store `[[0,5]]` for `(h, 0, 10)`, `get` the exact key (which returns cell 1,
the copy made by `set`), overwrite that array in place with `[[99,99]]`; a
later exact `get` returns the same cell, which now reads `[[99,99]]`, not the
stored `[[0,5]]`. -/
theorem c7_cache_alias_counterexample :
    (heapCacheGet (heapCacheSet ⟨[], [[⟨0, 5⟩]], 10⟩ "h" 0 10 0 1)
        "h" 0 10 2).1 = some 1
      ∧ (heapCacheGet
          (heapCacheWrite
            (heapCacheGet (heapCacheSet ⟨[], [[⟨0, 5⟩]], 10⟩ "h" 0 10 0 1)
              "h" 0 10 2).2 1 [⟨99, 99⟩])
          "h" 0 10 3).1 = some 1
      ∧ heapRead
          (heapCacheWrite
            (heapCacheGet (heapCacheSet ⟨[], [[⟨0, 5⟩]], 10⟩ "h" 0 10 0 1)
              "h" 0 10 2).2 1 [⟨99, 99⟩]).heap 1
        = [⟨99, 99⟩]
      ∧ ([(⟨99, 99⟩ : DateTimeRange)] ≠ [⟨0, 5⟩]) := by
  exact ⟨by decide, by decide, by decide, by decide⟩

/-- C7 (amended): after `set`, the entry holds a fresh cell (a shallow copy
of the argument array, so the caller's array is not aliased), an exact-key
`get` returns exactly that stored cell rather than a clone, and a write
through the returned cell is visible to later exact-key `get`s: they return
the same cell, which now holds the written contents. -/
theorem c7_cache_alias_amended :
    ∀ (c : HeapCache) (hash : String) (s e now now2 now3 : Int) (cell : Nat)
      (v : List DateTimeRange),
      cell < c.heap.length →
      (heapCacheGet (heapCacheSet c hash s e cell now) hash s e now2).1
          = some c.heap.length
        ∧ c.heap.length ≠ cell
        ∧ heapRead (heapCacheSet c hash s e cell now).heap c.heap.length
            = heapRead c.heap cell
        ∧ (heapCacheGet
            (heapCacheWrite
              (heapCacheGet (heapCacheSet c hash s e cell now) hash s e now2).2
              c.heap.length v)
            hash s e now3).1 = some c.heap.length
        ∧ heapRead
            (heapCacheWrite
              (heapCacheGet (heapCacheSet c hash s e cell now) hash s e now2).2
              c.heap.length v).heap c.heap.length
          = v := by
  intro c hash s e now now2 now3 cell v hcell
  have hdropHeap :
      ∀ (c0 : HeapCache),
        (match c0.entries.find?
            (fun (p : CacheKey × CacheEntryH) => p.1.hash == hash
              && canExpand p.2.startUnix p.2.stopUnix s e) with
          | some p => { c0 with entries := mapDelete c0.entries p.1 }
          | none => c0).heap = c0.heap := by
    intro c0
    cases c0.entries.find?
        (fun p => p.1.hash == hash
          && canExpand p.2.startUnix p.2.stopUnix s e) with
    | some p => rfl
    | none => rfl
  -- the state after `set`
  set key : CacheKey := ⟨hash, s, e⟩ with hkey
  have hset : heapCacheSet c hash s e cell now
      = { entries := mapSet (match c.entries.find?
            (fun (p : CacheKey × CacheEntryH) => p.1.hash == hash
              && canExpand p.2.startUnix p.2.stopUnix s e) with
          | some p => mapDelete c.entries p.1
          | none => c.entries) key ⟨c.heap.length, s, e, now⟩,
          heap := c.heap ++ [heapRead c.heap cell],
          maxSize := c.maxSize } := by
    simp only [heapCacheSet]
    cases c.entries.find?
        (fun p => p.1.hash == hash
          && canExpand p.2.startUnix p.2.stopUnix s e) with
    | some p => rfl
    | none => rfl
  set entries0 := (match c.entries.find?
      (fun (p : CacheKey × CacheEntryH) => p.1.hash == hash
        && canExpand p.2.startUnix p.2.stopUnix s e) with
    | some p => mapDelete c.entries p.1
    | none => c.entries) with hentries0
  have hfind1 : List.find? (fun p => p.1 == key)
      (mapSet entries0 key ⟨c.heap.length, s, e, now⟩)
      = some (key, ⟨c.heap.length, s, e, now⟩) := find?_mapSet_self ..
  have hget1 : heapCacheGet (heapCacheSet c hash s e cell now) hash s e now2
      = (some c.heap.length,
        { entries := bumpAccessedH (mapSet entries0 key ⟨c.heap.length, s, e, now⟩)
            key now2,
          heap := c.heap ++ [heapRead c.heap cell],
          maxSize := c.maxSize }) := by
    rw [hset]
    simp only [heapCacheGet]
    rw [hfind1]
  refine ⟨?_, ?_, ?_, ?_, ?_⟩
  · rw [hget1]
  · omega
  · rw [hset]
    simp only [heapRead]
    simp [List.getD, List.getElem?_concat_length]
  · rw [hget1]
    simp only [heapCacheWrite, heapCacheGet]
    rw [find?_bumpAccessedH _ _ _ _ hfind1]
  · rw [hget1]
    simp only [heapCacheWrite, heapRead]
    have hlen : c.heap.length < (c.heap ++ [heapRead c.heap cell]).length := by
      simp
    simp [List.getD, List.getElem?_set_self, hlen]

/-- C7 (witness): the amended statement applied at a one-cell heap. -/
theorem c7_cache_alias_witness :
    (0 < ([[⟨0, 5⟩]] : List (List DateTimeRange)).length)
      ∧ ((heapCacheGet (heapCacheSet ⟨[], [[⟨0, 5⟩]], 10⟩ "h" 0 10 0 1)
          "h" 0 10 2).1 = some 1
        ∧ (1 : Nat) ≠ 0
        ∧ heapRead (heapCacheSet (⟨[], [[⟨0, 5⟩]], 10⟩ : HeapCache)
            "h" 0 10 0 1).heap 1 = heapRead [[⟨0, 5⟩]] 0
        ∧ (heapCacheGet
            (heapCacheWrite
              (heapCacheGet (heapCacheSet ⟨[], [[⟨0, 5⟩]], 10⟩ "h" 0 10 0 1)
                "h" 0 10 2).2 1 [⟨7, 8⟩]) "h" 0 10 3).1 = some 1
        ∧ heapRead
            (heapCacheWrite
              (heapCacheGet (heapCacheSet ⟨[], [[⟨0, 5⟩]], 10⟩ "h" 0 10 0 1)
                "h" 0 10 2).2 1 [⟨7, 8⟩]).heap 1 = [⟨7, 8⟩]) :=
  ⟨by decide,
    c7_cache_alias_amended ⟨[], [[⟨0, 5⟩]], 10⟩ "h" 0 10 1 2 3 0 [⟨7, 8⟩]
      (by decide)⟩

/-! Support for the hash/clone claim: accessors and mutators over `Block`
mirroring `setMerge`, `addValue` (append form) and `removeValue`, and string
lemmas about the hash base. -/

/-- The merge state carried by a block. -/
def Block.mergeOf : Block → MergeState
  | .time _ m | .weekDay _ m | .month _ m | .monthDay _ m | .year _ m
  | .dateF _ m | .dateTime _ m | .ref _ m | .and _ m | .or _ m
  | .not _ m => m

/-- Embedding of `setMerge` (every class stores the new state and
invalidates the memoised hash). -/
def Block.setMergeB : Block → MergeState → Block
  | .time v _, m2 => .time v m2
  | .weekDay v _, m2 => .weekDay v m2
  | .month v _, m2 => .month v m2
  | .monthDay v _, m2 => .monthDay v m2
  | .year v _, m2 => .year v m2
  | .dateF v _, m2 => .dateF v m2
  | .dateTime v _, m2 => .dateTime v m2
  | .ref id _, m2 => .ref id m2
  | .and bs _, m2 => .and bs m2
  | .or bs _, m2 => .or bs m2
  | .not c _, m2 => .not c m2

/-- Whether the block is one of the three interval-valued fields. -/
def Block.isIntervalField : Block → Bool
  | .time _ _ | .dateF _ _ | .dateTime _ _ => true
  | _ => false

/-- Whether the block is one of the four numeric fields. -/
def Block.isNumericField : Block → Bool
  | .weekDay _ _ | .month _ _ | .monthDay _ _ | .year _ _ => true
  | _ => false

/-- Whether the block is a `Field` subclass (carries a value list). -/
def Block.isField (b : Block) : Bool :=
  b.isIntervalField || b.isNumericField

/-- Number of stored values of a field block. -/
def Block.valuesCount : Block → Nat
  | .time v _ | .dateF v _ | .dateTime v _ => v.length
  | .weekDay v _ | .month v _ | .monthDay v _ | .year v _ => v.length
  | _ => 0

/-- Embedding of `addValue` without an index on an interval-valued field
(`this.values.push(value)`). -/
def Block.appendRangeValue : Block → DateTimeRange → Block
  | .time vs m, v => .time (vs ++ [v]) m
  | .dateF vs m, v => .dateF (vs ++ [v]) m
  | .dateTime vs m, v => .dateTime (vs ++ [v]) m
  | b, _ => b

/-- Embedding of `addValue` without an index on a numeric field. -/
def Block.appendNumericValue : Block → ParsedNumericValue → Block
  | .weekDay vs m, v => .weekDay (vs ++ [v]) m
  | .month vs m, v => .month (vs ++ [v]) m
  | .monthDay vs m, v => .monthDay (vs ++ [v]) m
  | .year vs m, v => .year (vs ++ [v]) m
  | b, _ => b

/-- Embedding of `removeValue(index)` (`this.values.splice(index, 1)`). -/
def Block.removeValueAt : Block → Nat → Block
  | .time vs m, i => .time (vs.eraseIdx i) m
  | .weekDay vs m, i => .weekDay (vs.eraseIdx i) m
  | .month vs m, i => .month (vs.eraseIdx i) m
  | .monthDay vs m, i => .monthDay (vs.eraseIdx i) m
  | .year vs m, i => .year (vs.eraseIdx i) m
  | .dateF vs m, i => .dateF (vs.eraseIdx i) m
  | .dateTime vs m, i => .dateTime (vs.eraseIdx i) m
  | b, _ => b

/-- A non-empty string has positive length. -/
theorem strLenPos {x : String} (hx : x ≠ "") : 0 < x.length := by
  rcases x with ⟨data⟩
  cases data with
  | nil => exact absurd rfl hx
  | cons c cs => simp [String.length]

/-- Inserting a non-empty element strictly lengthens the comma join. -/
theorem joinComma_insert_longer (l1 l2 : List String) (x : String)
    (hx : x ≠ "") :
    (joinComma (l1 ++ l2)).length < (joinComma (l1 ++ x :: l2)).length := by
  induction l1 with
  | nil =>
    cases l2 with
    | nil =>
      simpa [joinComma] using strLenPos hx
    | cons y rest =>
      have hxpos : 0 < x.length := strLenPos hx
      have hcomma : ("," : String).length = 1 := rfl
      simp only [List.nil_append, joinComma, String.length_append]
      cases rest
      all_goals simp [joinComma, String.length_append, hcomma]
  | cons a l1' ih =>
    cases h1 : l1' ++ l2 with
    | nil =>
      rw [List.append_eq_nil] at h1
      obtain ⟨ha, hb⟩ := h1
      subst ha; subst hb
      have hxpos : 0 < x.length := strLenPos hx
      have hcomma : ("," : String).length = 1 := rfl
      simp [joinComma, String.length_append, hcomma]
      omega
    | cons w ws =>
      have hne2 : l1' ++ x :: l2 ≠ [] := by
        cases l1' <;> simp
      have e1 : joinComma (a :: (l1' ++ l2))
          = a ++ "," ++ joinComma (l1' ++ l2) := by
        rw [h1]; rfl
      have e2 : joinComma (a :: (l1' ++ x :: l2))
          = a ++ "," ++ joinComma (l1' ++ x :: l2) := by
        cases hc : l1' ++ x :: l2 with
        | nil => exact absurd hc hne2
        | cons u us => rfl
      simp only [List.cons_append, e1, e2, String.length_append]
      omega

/-- Length view of `jsonArr`. -/
theorem jsonArr_length (l : List String) :
    (jsonArr l).length = (joinComma l).length + 2 := by
  have h1 : ("[" : String).length = 1 := rfl
  have h2 : ("]" : String).length = 1 := rfl
  simp [jsonArr, String.length_append, h1, h2]
  omega

/-- Inserting a non-empty element changes the serialised array. -/
theorem jsonArr_insert_ne (l1 l2 : List String) (x : String) (hx : x ≠ "") :
    jsonArr (l1 ++ x :: l2) ≠ jsonArr (l1 ++ l2) := by
  intro heq
  have := congrArg String.length heq
  rw [jsonArr_length, jsonArr_length] at this
  have := joinComma_insert_longer l1 l2 x hx
  omega

/-- Two field bases with equal name and merge but differently sized
serialised value lists differ. -/
theorem fieldBase_ne_of_jsonArr_ne_length (name : String) (m : MergeState)
    (p p' : List String)
    (h : (jsonArr p).length ≠ (jsonArr p').length) :
    fieldBase name m p ≠ fieldBase name m p' := by
  intro heq
  have := congrArg String.length heq
  simp only [fieldBase, String.length_append] at this
  omega

/-- The single digit of the interpolated merge state. -/
def mergeDigit : MergeState → Char
  | .DEFAULT => '0'
  | .EXPLICIT_ON => '1'
  | .EXPLICIT_OFF => '2'

/-- Character-list view of a hash base string. -/
theorem baseData (name p : String) (m : MergeState) :
    (name ++ ":" ++ toString m.toNum ++ ":" ++ p).data
      = name.data ++ ':' :: mergeDigit m :: ':' :: p.data := by
  cases m <;>
    simp [String.data_append, List.append_assoc, MergeState.toNum,
      mergeDigit] <;> rfl

/-- Lists that differ only in one marked character differ. -/
theorem appendDigitNe (nm : List Char) (c c' : Char) (p : List Char)
    (h : c ≠ c') :
    nm ++ ':' :: c :: ':' :: p ≠ nm ++ ':' :: c' :: ':' :: p := by
  intro heq
  have h2 := List.append_cancel_left heq
  simp only [List.cons.injEq] at h2
  exact h h2.2.1

/-- A different merge state changes the hash base (the skeleton common to
`fieldBase` and `condBase`). -/
theorem baseStr_merge_ne (name p : String) {m m' : MergeState} (h : m ≠ m') :
    name ++ ":" ++ toString m.toNum ++ ":" ++ p
      ≠ name ++ ":" ++ toString m'.toNum ++ ":" ++ p := by
  intro heq
  have hd := congrArg String.data heq
  rw [baseData, baseData] at hd
  refine appendDigitNe name.data (mergeDigit m) (mergeDigit m') p.data ?_ hd
  intro hc
  cases m <;> cases m' <;> simp [mergeDigit] at hc <;> exact h (by rfl)

/-- A serialised range is never the empty string. -/
theorem jsonRange_ne_empty (r : DateTimeRange) : jsonRange r ≠ "" := by
  intro h
  have hl := congrArg String.length h
  have h0 : ("" : String).length = 0 := rfl
  simp only [jsonRange, String.length_append, h0] at hl
  have hp : 0 < ("\x7b\"start\":" : String).length := by decide
  omega

/-- A serialised numeric value is never the empty string. -/
theorem jsonPNV_ne_empty (p : ParsedNumericValue) : jsonPNV p ≠ "" := by
  intro h
  have hl := congrArg String.length h
  have h0 : ("" : String).length = 0 := rfl
  cases p with
  | Number v =>
    simp only [jsonPNV, String.length_append, h0] at hl
    have hp : 0 < ("\x7b\"type\":\"Number\",\"value\":" : String).length := by
      decide
    omega
  | Range s e =>
    simp only [jsonPNV, String.length_append, h0] at hl
    have hp : 0 < ("\x7b\"type\":\"Range\",\"start\":" : String).length := by
      decide
    omega
  | Algebraic a op y =>
    simp only [jsonPNV, String.length_append, h0] at hl
    have hp : 0 < ("\x7b\"type\":\"Algebraic\",\"coefficientN\":" : String).length := by
      decide
    omega

/-- Mapping commutes with `eraseIdx`. -/
theorem map_eraseIdx {α β : Type} (f : α → β) :
    ∀ (l : List α) (i : Nat), (l.eraseIdx i).map f = (l.map f).eraseIdx i := by
  intro l
  induction l with
  | nil => intro i; simp [List.eraseIdx]
  | cons a t ih =>
    intro i
    cases i with
    | zero => simp [List.eraseIdx]
    | succ j => simp [List.eraseIdx, ih]

/-- Erasing one element of a list of non-empty strings shrinks the
serialised array strictly. -/
theorem jsonArr_erase_ne (js : List String) (i : Nat) (hi : i < js.length)
    (hne : ∀ s ∈ js, s ≠ "") :
    (jsonArr (js.eraseIdx i)).length ≠ (jsonArr js).length := by
  have hd : js.drop i = js[i] :: js.drop (i + 1) := List.drop_eq_getElem_cons hi
  have hsplit : js = js.take i ++ js[i] :: js.drop (i + 1) := by
    conv_lhs => rw [← List.take_append_drop i js]
    rw [hd]
  have her : js.eraseIdx i = js.take i ++ js.drop (i + 1) :=
    List.eraseIdx_eq_take_drop_succ js i
  have hlt := joinComma_insert_longer (js.take i) (js.drop (i + 1)) js[i]
    (hne js[i] (List.getElem_mem hi))
  rw [jsonArr_length, jsonArr_length, her]
  conv_rhs => rw [hsplit]
  omega

/-- Cloning a block whose nodes all carry `MergeState.DEFAULT` reproduces
the block exactly (values are copied, children cloned recursively). -/
theorem clone_eq_self :
    ∀ b : Block, Block.allDefault b = true → Block.clone b = b := by
  intro b
  induction b using Block.clone.induct with
  | case1 v m => intro h; simp_all [Block.clone, Block.allDefault]
  | case2 v m => intro h; simp_all [Block.clone, Block.allDefault]
  | case3 v m => intro h; simp_all [Block.clone, Block.allDefault]
  | case4 v m => intro h; simp_all [Block.clone, Block.allDefault]
  | case5 v m => intro h; simp_all [Block.clone, Block.allDefault]
  | case6 v m => intro h; simp_all [Block.clone, Block.allDefault]
  | case7 v m => intro h; simp_all [Block.clone, Block.allDefault]
  | case8 id m => intro h; simp_all [Block.clone, Block.allDefault]
  | case9 bs m ih =>
    intro h
    simp only [Block.allDefault, Bool.and_eq_true, beq_iff_eq,
      List.all_eq_true] at h
    obtain ⟨hm, hall⟩ := h
    subst hm
    simp only [Block.clone]
    congr 1
    have hmap : (bs.attach.map fun c => Block.clone c.1)
        = bs.attach.map fun c => (c.1 : Block) := by
      apply List.map_congr_left
      intro c _
      exact ih c (hall c (List.mem_attach bs c))
    rw [hmap, List.attach_map_subtype_val]
  | case10 bs m ih =>
    intro h
    simp only [Block.allDefault, Bool.and_eq_true, beq_iff_eq,
      List.all_eq_true] at h
    obtain ⟨hm, hall⟩ := h
    subst hm
    simp only [Block.clone]
    congr 1
    have hmap : (bs.attach.map fun c => Block.clone c.1)
        = bs.attach.map fun c => (c.1 : Block) := by
      apply List.map_congr_left
      intro c _
      exact ih c (hall c (List.mem_attach bs c))
    rw [hmap, List.attach_map_subtype_val]
  | case11 c m ih =>
    intro h
    simp only [Block.allDefault, Bool.and_eq_true, beq_iff_eq] at h
    obtain ⟨hm, hc⟩ := h
    subst hm
    simp [Block.clone, ih hc]
  | case12 m =>
    intro h
    simp_all [Block.clone, Block.allDefault]

set_option maxRecDepth 20000

/-- C8 (counterexample): `clone` does not copy the merge state, so a block
with an explicit merge state hashes differently from its clone:
`T[0:00..0:00.001]` with `EXPLICIT_ON` and its clone (which carries
`DEFAULT`) produce different `getHash()` values. -/
theorem c8_hash_clone_counterexample :
    Block.clone (.time [⟨0, 1⟩] .EXPLICIT_ON) = .time [⟨0, 1⟩] .DEFAULT
      ∧ Block.getHash (.time [⟨0, 1⟩] .EXPLICIT_ON)
          ≠ Block.getHash (Block.clone (.time [⟨0, 1⟩] .EXPLICIT_ON)) := by
  constructor
  · simp [Block.clone]
  · simp only [Block.clone, Block.getHash, Block.hashBase]
    decide

/-- C8 (amended): (a) for blocks whose nodes all carry `DEFAULT`,
`getHash(clone(b)) = getHash(b)`; (b) `setMerge` with a different state and
`addValue`/`removeValue` on a field's value list always change the hash base
string that `getHash` feeds to the 32-bit rolling hash (the memoised hash is
invalidated and recomputed from it); (c) on concrete inputs the hash value
itself changes (a 32-bit hash cannot exclude collisions in general, so the
base string is the right universal statement). -/
theorem c8_hash_clone_amended :
    (∀ b : Block, Block.allDefault b = true →
        Block.getHash (Block.clone b) = Block.getHash b)
      ∧ (∀ (b : Block) (m2 : MergeState), m2 ≠ b.mergeOf →
        Block.hashBase (b.setMergeB m2) ≠ Block.hashBase b)
      ∧ (∀ (b : Block) (v : DateTimeRange), b.isIntervalField = true →
        Block.hashBase (b.appendRangeValue v) ≠ Block.hashBase b)
      ∧ (∀ (b : Block) (v : ParsedNumericValue), b.isNumericField = true →
        Block.hashBase (b.appendNumericValue v) ≠ Block.hashBase b)
      ∧ (∀ (b : Block) (i : Nat), b.isField = true → i < b.valuesCount →
        Block.hashBase (b.removeValueAt i) ≠ Block.hashBase b)
      ∧ Block.getHash (.time [⟨0, 1⟩, ⟨2, 3⟩] .DEFAULT)
          ≠ Block.getHash (.time [⟨0, 1⟩] .DEFAULT)
      ∧ Block.getHash (.time [⟨0, 1⟩] .EXPLICIT_ON)
          ≠ Block.getHash (.time [⟨0, 1⟩] .DEFAULT) := by
  have hinsRange : ∀ (name : String) (m : MergeState)
      (vs : List DateTimeRange) (v : DateTimeRange),
      fieldBase name m ((vs ++ [v]).map jsonRange)
        ≠ fieldBase name m (vs.map jsonRange) := by
    intro name m vs v
    apply fieldBase_ne_of_jsonArr_ne_length
    rw [List.map_append]
    have := joinComma_insert_longer (vs.map jsonRange) [] (jsonRange v)
      (jsonRange_ne_empty v)
    rw [jsonArr_length, jsonArr_length]
    simp only [List.map_cons, List.map_nil, List.append_nil] at this ⊢
    omega
  have hinsPNV : ∀ (name : String) (m : MergeState)
      (vs : List ParsedNumericValue) (v : ParsedNumericValue),
      fieldBase name m ((vs ++ [v]).map jsonPNV)
        ≠ fieldBase name m (vs.map jsonPNV) := by
    intro name m vs v
    apply fieldBase_ne_of_jsonArr_ne_length
    rw [List.map_append]
    have := joinComma_insert_longer (vs.map jsonPNV) [] (jsonPNV v)
      (jsonPNV_ne_empty v)
    rw [jsonArr_length, jsonArr_length]
    simp only [List.map_cons, List.map_nil, List.append_nil] at this ⊢
    omega
  have heraseRange : ∀ (name : String) (m : MergeState)
      (vs : List DateTimeRange) (i : Nat), i < vs.length →
      fieldBase name m ((vs.eraseIdx i).map jsonRange)
        ≠ fieldBase name m (vs.map jsonRange) := by
    intro name m vs i hi
    apply fieldBase_ne_of_jsonArr_ne_length
    rw [map_eraseIdx]
    exact jsonArr_erase_ne (vs.map jsonRange) i (by simpa using hi)
      (by intro s hs
          obtain ⟨r, _, hr⟩ := List.mem_map.mp hs
          exact hr ▸ jsonRange_ne_empty r)
  have herasePNV : ∀ (name : String) (m : MergeState)
      (vs : List ParsedNumericValue) (i : Nat), i < vs.length →
      fieldBase name m ((vs.eraseIdx i).map jsonPNV)
        ≠ fieldBase name m (vs.map jsonPNV) := by
    intro name m vs i hi
    apply fieldBase_ne_of_jsonArr_ne_length
    rw [map_eraseIdx]
    exact jsonArr_erase_ne (vs.map jsonPNV) i (by simpa using hi)
      (by intro s hs
          obtain ⟨r, _, hr⟩ := List.mem_map.mp hs
          exact hr ▸ jsonPNV_ne_empty r)
  refine ⟨?_, ?_, ?_, ?_, ?_, ?_, ?_⟩
  · intro b h
    rw [clone_eq_self b h]
  · intro b m2 hne
    cases b with
    | time v m =>
      simp only [Block.mergeOf] at hne
      simp only [Block.setMergeB, Block.hashBase]
      exact baseStr_merge_ne "TimeField" (jsonArr (v.map jsonRange)) hne
    | weekDay v m =>
      simp only [Block.mergeOf] at hne
      simp only [Block.setMergeB, Block.hashBase]
      exact baseStr_merge_ne "WeekDayField" (jsonArr (v.map jsonPNV)) hne
    | month v m =>
      simp only [Block.mergeOf] at hne
      simp only [Block.setMergeB, Block.hashBase]
      exact baseStr_merge_ne "MonthField" (jsonArr (v.map jsonPNV)) hne
    | monthDay v m =>
      simp only [Block.mergeOf] at hne
      simp only [Block.setMergeB, Block.hashBase]
      exact baseStr_merge_ne "MonthDayField" (jsonArr (v.map jsonPNV)) hne
    | year v m =>
      simp only [Block.mergeOf] at hne
      simp only [Block.setMergeB, Block.hashBase]
      exact baseStr_merge_ne "YearField" (jsonArr (v.map jsonPNV)) hne
    | dateF v m =>
      simp only [Block.mergeOf] at hne
      simp only [Block.setMergeB, Block.hashBase]
      exact baseStr_merge_ne "DateField" (jsonArr (v.map jsonRange)) hne
    | dateTime v m =>
      simp only [Block.mergeOf] at hne
      simp only [Block.setMergeB, Block.hashBase]
      exact baseStr_merge_ne "DateTimeField" (jsonArr (v.map jsonRange)) hne
    | ref id m =>
      simp only [Block.mergeOf] at hne
      simp only [Block.setMergeB, Block.hashBase]
      exact baseStr_merge_ne "Reference" id hne
    | and bs m =>
      simp only [Block.mergeOf] at hne
      simp only [Block.setMergeB, Block.hashBase]
      exact baseStr_merge_ne "AndOperator" _ hne
    | or bs m =>
      simp only [Block.mergeOf] at hne
      simp only [Block.setMergeB, Block.hashBase]
      exact baseStr_merge_ne "OrBlock" _ hne
    | not c m =>
      simp only [Block.mergeOf] at hne
      cases c with
      | none =>
        simp only [Block.setMergeB, Block.hashBase]
        exact baseStr_merge_ne "NotBlock" "null" hne
      | some cb =>
        simp only [Block.setMergeB, Block.hashBase]
        exact baseStr_merge_ne "NotBlock" _ hne
  · intro b v hb
    cases b with
    | time vs m =>
      simp only [Block.appendRangeValue, Block.hashBase]
      exact hinsRange "TimeField" m vs v
    | dateF vs m =>
      simp only [Block.appendRangeValue, Block.hashBase]
      exact hinsRange "DateField" m vs v
    | dateTime vs m =>
      simp only [Block.appendRangeValue, Block.hashBase]
      exact hinsRange "DateTimeField" m vs v
    | weekDay vs m => simp [Block.isIntervalField] at hb
    | month vs m => simp [Block.isIntervalField] at hb
    | monthDay vs m => simp [Block.isIntervalField] at hb
    | year vs m => simp [Block.isIntervalField] at hb
    | ref id m => simp [Block.isIntervalField] at hb
    | and bs m => simp [Block.isIntervalField] at hb
    | or bs m => simp [Block.isIntervalField] at hb
    | not c m => simp [Block.isIntervalField] at hb
  · intro b v hb
    cases b with
    | weekDay vs m =>
      simp only [Block.appendNumericValue, Block.hashBase]
      exact hinsPNV "WeekDayField" m vs v
    | month vs m =>
      simp only [Block.appendNumericValue, Block.hashBase]
      exact hinsPNV "MonthField" m vs v
    | monthDay vs m =>
      simp only [Block.appendNumericValue, Block.hashBase]
      exact hinsPNV "MonthDayField" m vs v
    | year vs m =>
      simp only [Block.appendNumericValue, Block.hashBase]
      exact hinsPNV "YearField" m vs v
    | time vs m => simp [Block.isNumericField] at hb
    | dateF vs m => simp [Block.isNumericField] at hb
    | dateTime vs m => simp [Block.isNumericField] at hb
    | ref id m => simp [Block.isNumericField] at hb
    | and bs m => simp [Block.isNumericField] at hb
    | or bs m => simp [Block.isNumericField] at hb
    | not c m => simp [Block.isNumericField] at hb
  · intro b i hb hi
    cases b with
    | time vs m =>
      simp only [Block.valuesCount] at hi
      simp only [Block.removeValueAt, Block.hashBase]
      exact heraseRange "TimeField" m vs i hi
    | dateF vs m =>
      simp only [Block.valuesCount] at hi
      simp only [Block.removeValueAt, Block.hashBase]
      exact heraseRange "DateField" m vs i hi
    | dateTime vs m =>
      simp only [Block.valuesCount] at hi
      simp only [Block.removeValueAt, Block.hashBase]
      exact heraseRange "DateTimeField" m vs i hi
    | weekDay vs m =>
      simp only [Block.valuesCount] at hi
      simp only [Block.removeValueAt, Block.hashBase]
      exact herasePNV "WeekDayField" m vs i hi
    | month vs m =>
      simp only [Block.valuesCount] at hi
      simp only [Block.removeValueAt, Block.hashBase]
      exact herasePNV "MonthField" m vs i hi
    | monthDay vs m =>
      simp only [Block.valuesCount] at hi
      simp only [Block.removeValueAt, Block.hashBase]
      exact herasePNV "MonthDayField" m vs i hi
    | year vs m =>
      simp only [Block.valuesCount] at hi
      simp only [Block.removeValueAt, Block.hashBase]
      exact herasePNV "YearField" m vs i hi
    | ref id m => simp [Block.isField, Block.isIntervalField, Block.isNumericField] at hb
    | and bs m => simp [Block.isField, Block.isIntervalField, Block.isNumericField] at hb
    | or bs m => simp [Block.isField, Block.isIntervalField, Block.isNumericField] at hb
    | not c m => simp [Block.isField, Block.isIntervalField, Block.isNumericField] at hb
  · simp only [Block.getHash, Block.hashBase]
    decide
  · simp only [Block.getHash, Block.hashBase]
    decide

/-- C8 (witness): the amended statement applied at concrete blocks — a
hereditarily `DEFAULT` `AndOperator` hash-agrees with its clone, and a
`setMerge`, an `addValue` and a `removeValue` each change the hash base of a
concrete `TimeField`. -/
theorem c8_hash_clone_witness :
    (Block.allDefault
        (.and [.time [⟨0, 1⟩] .DEFAULT, .not none .DEFAULT] .DEFAULT) = true
      ∧ Block.getHash
          (Block.clone
            (.and [.time [⟨0, 1⟩] .DEFAULT, .not none .DEFAULT] .DEFAULT))
        = Block.getHash
            (.and [.time [⟨0, 1⟩] .DEFAULT, .not none .DEFAULT] .DEFAULT))
      ∧ (MergeState.EXPLICIT_OFF ≠ Block.mergeOf (.time [⟨0, 1⟩] .DEFAULT)
        ∧ Block.hashBase
            (Block.setMergeB (.time [⟨0, 1⟩] .DEFAULT) .EXPLICIT_OFF)
          ≠ Block.hashBase (.time [⟨0, 1⟩] .DEFAULT))
      ∧ (Block.isIntervalField (.time [⟨0, 1⟩] .DEFAULT) = true
        ∧ Block.hashBase (Block.appendRangeValue (.time [⟨0, 1⟩] .DEFAULT) ⟨2, 3⟩)
          ≠ Block.hashBase (.time [⟨0, 1⟩] .DEFAULT))
      ∧ (Block.isField (.time [⟨0, 1⟩] .DEFAULT) = true
        ∧ 0 < Block.valuesCount (.time [⟨0, 1⟩] .DEFAULT)
        ∧ Block.hashBase (Block.removeValueAt (.time [⟨0, 1⟩] .DEFAULT) 0)
          ≠ Block.hashBase (.time [⟨0, 1⟩] .DEFAULT)) := by
  refine ⟨⟨?_, ?_⟩, ⟨by decide, ?_⟩, ⟨by decide, ?_⟩, ⟨by decide, by decide, ?_⟩⟩
  · simp [Block.allDefault]
  · exact c8_hash_clone_amended.1 _ (by simp [Block.allDefault])
  · exact c8_hash_clone_amended.2.1 (.time [⟨0, 1⟩] .DEFAULT) .EXPLICIT_OFF
      (by decide)
  · exact c8_hash_clone_amended.2.2.1 (.time [⟨0, 1⟩] .DEFAULT) ⟨2, 3⟩
      (by decide)
  · exact c8_hash_clone_amended.2.2.2.2.1 (.time [⟨0, 1⟩] .DEFAULT) 0
      (by decide) (by decide)

/-- Boolean check that the range starts are nondecreasing. -/
def startsMono : List DateTimeRange → Bool
  | a :: b :: rest => decide (a.start ≤ b.start) && startsMono (b :: rest)
  | _ => true

/-- Boolean check that the range ends are nondecreasing. -/
def endsMono : List DateTimeRange → Bool
  | a :: b :: rest => decide (a.stop ≤ b.stop) && endsMono (b :: rest)
  | _ => true

theorem startsMono_adj : ∀ (R : List DateTimeRange), startsMono R = true →
    ∀ j : Nat, j + 1 < R.length →
      (R.getD j ⟨0, 0⟩).start ≤ (R.getD (j + 1) ⟨0, 0⟩).start := by
  intro R
  induction R with
  | nil => intro h j hj; simp at hj
  | cons a t ih =>
    cases t with
    | nil => intro h j hj; simp at hj
    | cons b r =>
      intro h j hj
      simp only [startsMono, Bool.and_eq_true, decide_eq_true_eq] at h
      cases j with
      | zero => simpa [List.getD] using h.1
      | succ k =>
        have hk : k + 1 < (b :: r).length := by
          simp only [List.length_cons] at hj ⊢; omega
        simpa [List.getD] using ih h.2 k hk

theorem startsMono_le (R : List DateTimeRange) (h : startsMono R = true)
    (i j : Nat) (hij : i ≤ j) (hj : j < R.length) :
    (R.getD i ⟨0, 0⟩).start ≤ (R.getD j ⟨0, 0⟩).start := by
  obtain ⟨k, rfl⟩ := Nat.exists_eq_add_of_le hij
  clear hij
  induction k with
  | zero => exact le_refl _
  | succ m ihm =>
    have h1 := ihm (by omega)
    have h2 := startsMono_adj R h (i + m) (by omega)
    have he : i + (m + 1) = (i + m) + 1 := by omega
    rw [he]
    exact le_trans h1 h2

theorem endsMono_adj : ∀ (R : List DateTimeRange), endsMono R = true →
    ∀ j : Nat, j + 1 < R.length →
      (R.getD j ⟨0, 0⟩).stop ≤ (R.getD (j + 1) ⟨0, 0⟩).stop := by
  intro R
  induction R with
  | nil => intro h j hj; simp at hj
  | cons a t ih =>
    cases t with
    | nil => intro h j hj; simp at hj
    | cons b r =>
      intro h j hj
      simp only [endsMono, Bool.and_eq_true, decide_eq_true_eq] at h
      cases j with
      | zero => simpa [List.getD] using h.1
      | succ k =>
        have hk : k + 1 < (b :: r).length := by
          simp only [List.length_cons] at hj ⊢; omega
        simpa [List.getD] using ih h.2 k hk

theorem endsMono_le (R : List DateTimeRange) (h : endsMono R = true)
    (i j : Nat) (hij : i ≤ j) (hj : j < R.length) :
    (R.getD i ⟨0, 0⟩).stop ≤ (R.getD j ⟨0, 0⟩).stop := by
  obtain ⟨k, rfl⟩ := Nat.exists_eq_add_of_le hij
  clear hij
  induction k with
  | zero => exact le_refl _
  | succ m ihm =>
    have h1 := ihm (by omega)
    have h2 := endsMono_adj R h (i + m) (by omega)
    have he : i + (m + 1) = (i + m) + 1 := by omega
    rw [he]
    exact le_trans h1 h2

theorem findFirstAux_spec (R : List DateTimeRange) (x : Int)
    (hmono : ∀ i j : Nat, i ≤ j → j < R.length →
      (R.getD i ⟨0, 0⟩).stop ≤ (R.getD j ⟨0, 0⟩).stop) :
    ∀ (fuel : Nat) (left right result : Int),
      0 ≤ left →
      right ≤ (R.length : Int) - 1 →
      right - left + 1 < (fuel : Int) →
      (∀ i : Nat, i < R.length → x ≤ (R.getD i ⟨0, 0⟩).stop → left ≤ (i : Int)) →
      (result = -1 → right = (R.length : Int) - 1) →
      (result ≠ -1 →
        0 ≤ result ∧ result < (R.length : Int) ∧
        x ≤ (R.getD result.toNat ⟨0, 0⟩).stop ∧ right = result - 1) →
      (findFirstAux R x fuel left right result = -1 ∧
        ∀ i : Nat, i < R.length → (R.getD i ⟨0, 0⟩).stop < x)
      ∨ (0 ≤ findFirstAux R x fuel left right result ∧
         findFirstAux R x fuel left right result < (R.length : Int) ∧
         x ≤ (R.getD (findFirstAux R x fuel left right result).toNat ⟨0, 0⟩).stop ∧
         ∀ i : Nat, (i : Int) < findFirstAux R x fuel left right result →
           i < R.length → (R.getD i ⟨0, 0⟩).stop < x) := by
  intro fuel
  induction fuel with
  | zero =>
    intro left right result h0 hr hfuel hinv hres1 hres2
    simp only [Nat.cast_zero] at hfuel
    by_cases hres : result = -1
    · subst hres
      have hr1 := hres1 rfl
      left
      refine ⟨rfl, ?_⟩
      intro i hi
      by_contra hcon
      push_neg at hcon
      have := hinv i hi hcon
      omega
    · obtain ⟨ha, hb, hc, hd⟩ := hres2 hres
      right
      simp only [findFirstAux]
      refine ⟨ha, hb, hc, ?_⟩
      intro i hil hin
      by_contra hcon
      push_neg at hcon
      have := hinv i hin hcon
      omega
  | succ f ih =>
    intro left right result h0 hr hfuel hinv hres1 hres2
    by_cases hlr : left ≤ right
    · have hn1 : 1 ≤ (R.length : Int) := by omega
      have hmid1 : left ≤ (left + right) / 2 := by omega
      have hmid2 : (left + right) / 2 ≤ right := by omega
      have hmidn : ((left + right) / 2).toNat < R.length := by omega
      simp only [findFirstAux, if_pos hlr]
      by_cases hx : x ≤ (R.getD ((left + right) / 2).toNat ⟨0, 0⟩).stop
      · rw [if_pos hx]
        apply ih left ((left + right) / 2 - 1) ((left + right) / 2) h0 (by omega)
          (by push_cast at hfuel; omega) hinv
        · intro hcon; omega
        · intro _
          refine ⟨by omega, by omega, hx, by omega⟩
      · rw [if_neg (by simpa using hx)]
        apply ih ((left + right) / 2 + 1) right result (by omega) hr
          (by push_cast at hfuel; omega)
        · intro i hi hxi
          have hge := hinv i hi hxi
          by_contra hcon
          push_neg at hcon
          have hle : i ≤ ((left + right) / 2).toNat := by omega
          have := hmono i ((left + right) / 2).toNat hle hmidn
          omega
        · exact hres1
        · exact hres2
    · simp only [findFirstAux, if_neg hlr]
      by_cases hres : result = -1
      · subst hres
        have hr1 := hres1 rfl
        left
        refine ⟨rfl, ?_⟩
        intro i hi
        by_contra hcon
        push_neg at hcon
        have := hinv i hi hcon
        omega
      · obtain ⟨ha, hb, hc, hd⟩ := hres2 hres
        right
        refine ⟨ha, hb, hc, ?_⟩
        intro i hil hin
        by_contra hcon
        push_neg at hcon
        have := hinv i hin hcon
        omega

theorem findLastAux_spec (R : List DateTimeRange) (x : Int)
    (hmono : ∀ i j : Nat, i ≤ j → j < R.length →
      (R.getD i ⟨0, 0⟩).start ≤ (R.getD j ⟨0, 0⟩).start) :
    ∀ (fuel : Nat) (left right result : Int),
      0 ≤ left →
      right ≤ (R.length : Int) - 1 →
      right - left + 1 < (fuel : Int) →
      (∀ i : Nat, i < R.length → (R.getD i ⟨0, 0⟩).start ≤ x → (i : Int) ≤ right) →
      (result = -1 → left = 0) →
      (result ≠ -1 →
        0 ≤ result ∧ result < (R.length : Int) ∧
        (R.getD result.toNat ⟨0, 0⟩).start ≤ x ∧ left = result + 1) →
      (findLastAux R x fuel left right result = -1 ∧
        ∀ i : Nat, i < R.length → x < (R.getD i ⟨0, 0⟩).start)
      ∨ (0 ≤ findLastAux R x fuel left right result ∧
         findLastAux R x fuel left right result < (R.length : Int) ∧
         (R.getD (findLastAux R x fuel left right result).toNat ⟨0, 0⟩).start ≤ x ∧
         ∀ i : Nat, findLastAux R x fuel left right result < (i : Int) →
           i < R.length → x < (R.getD i ⟨0, 0⟩).start) := by
  intro fuel
  induction fuel with
  | zero =>
    intro left right result h0 hr hfuel hinv hres1 hres2
    simp only [Nat.cast_zero] at hfuel
    by_cases hres : result = -1
    · subst hres
      have hl0 := hres1 rfl
      left
      refine ⟨rfl, ?_⟩
      intro i hi
      by_contra hcon
      push_neg at hcon
      have := hinv i hi hcon
      omega
    · obtain ⟨ha, hb, hc, hd⟩ := hres2 hres
      right
      simp only [findLastAux]
      refine ⟨ha, hb, hc, ?_⟩
      intro i hil hin
      by_contra hcon
      push_neg at hcon
      have := hinv i hin hcon
      omega
  | succ f ih =>
    intro left right result h0 hr hfuel hinv hres1 hres2
    by_cases hlr : left ≤ right
    · have hn1 : 1 ≤ (R.length : Int) := by omega
      have hmid1 : left ≤ (left + right) / 2 := by omega
      have hmid2 : (left + right) / 2 ≤ right := by omega
      have hmidn : ((left + right) / 2).toNat < R.length := by omega
      simp only [findLastAux, if_pos hlr]
      by_cases hx : (R.getD ((left + right) / 2).toNat ⟨0, 0⟩).start ≤ x
      · rw [if_pos hx]
        apply ih ((left + right) / 2 + 1) right ((left + right) / 2) (by omega) hr
          (by push_cast at hfuel; omega) hinv
        · intro hcon; omega
        · intro _
          refine ⟨by omega, by omega, hx, by omega⟩
      · rw [if_neg hx]
        apply ih left ((left + right) / 2 - 1) result h0 (by omega)
          (by push_cast at hfuel; omega)
        · intro i hi hxi
          have hle := hinv i hi hxi
          by_contra hcon
          push_neg at hcon
          have hge : ((left + right) / 2).toNat ≤ i := by omega
          have := hmono ((left + right) / 2).toNat i hge hi
          omega
        · exact hres1
        · exact hres2
    · simp only [findLastAux, if_neg hlr]
      by_cases hres : result = -1
      · subst hres
        have hl0 := hres1 rfl
        left
        refine ⟨rfl, ?_⟩
        intro i hi
        by_contra hcon
        push_neg at hcon
        have := hinv i hi hcon
        omega
      · obtain ⟨ha, hb, hc, hd⟩ := hres2 hres
        right
        refine ⟨ha, hb, hc, ?_⟩
        intro i hil hin
        by_contra hcon
        push_neg at hcon
        have := hinv i hin hcon
        omega

theorem findFirstIntersectingIndex_spec (R : List DateTimeRange) (x : Int)
    (he : endsMono R = true) :
    (findFirstIntersectingIndex R x = -1 ∧
      ∀ i : Nat, i < R.length → (R.getD i ⟨0, 0⟩).stop < x)
    ∨ (0 ≤ findFirstIntersectingIndex R x ∧
       findFirstIntersectingIndex R x < (R.length : Int) ∧
       x ≤ (R.getD (findFirstIntersectingIndex R x).toNat ⟨0, 0⟩).stop ∧
       ∀ i : Nat, (i : Int) < findFirstIntersectingIndex R x →
         i < R.length → (R.getD i ⟨0, 0⟩).stop < x) := by
  have := findFirstAux_spec R x (fun i j hij hj => endsMono_le R he i j hij hj)
    (R.length + 1) 0 ((R.length : Int) - 1) (-1)
    (by omega) (by omega) (by push_cast; omega)
    (by intro i _ _; omega) (by intro _; rfl) (by intro hcon; exact absurd rfl hcon)
  simpa only [findFirstIntersectingIndex] using this

theorem findLastIntersectingIndex_spec (R : List DateTimeRange) (x : Int)
    (hs : startsMono R = true) :
    (findLastIntersectingIndex R x = -1 ∧
      ∀ i : Nat, i < R.length → x < (R.getD i ⟨0, 0⟩).start)
    ∨ (0 ≤ findLastIntersectingIndex R x ∧
       findLastIntersectingIndex R x < (R.length : Int) ∧
       (R.getD (findLastIntersectingIndex R x).toNat ⟨0, 0⟩).start ≤ x ∧
       ∀ i : Nat, findLastIntersectingIndex R x < (i : Int) →
         i < R.length → x < (R.getD i ⟨0, 0⟩).start) := by
  have := findLastAux_spec R x (fun i j hij hj => startsMono_le R hs i j hij hj)
    (R.length + 1) 0 ((R.length : Int) - 1) (-1)
    (by omega) (by omega) (by push_cast; omega)
    (by intro i hi _; omega) (by intro _; rfl) (by intro hcon; exact absurd rfl hcon)
  simpa only [findLastIntersectingIndex] using this

/-- Per-element clipping of a range list to a window, written from the
specification text, to be compared with `extractSubset`. -/
def clipList (R : List DateTimeRange) (lo hi : Int) : List DateTimeRange :=
  R.filterMap fun r =>
    if max r.start lo ≤ min r.stop hi then some ⟨max r.start lo, min r.stop hi⟩
    else none

theorem clipList_eq_nil (R : List DateTimeRange) (lo hi : Int)
    (h : ∀ r ∈ R, min r.stop hi < max r.start lo) : clipList R lo hi = [] := by
  induction R with
  | nil => rfl
  | cons a t ih =>
    have ha := h a (List.mem_cons_self a t)
    have hcond : ¬(max a.start lo ≤ min a.stop hi) := by omega
    simp only [clipList, List.filterMap_cons, if_neg hcond]
    exact ih (fun r hr => h r (List.mem_cons_of_mem a hr))

theorem clipList_self (R : List DateTimeRange) (lo hi : Int)
    (h : ∀ r ∈ R, lo ≤ r.start ∧ r.start ≤ r.stop ∧ r.stop ≤ hi) :
    clipList R lo hi = R := by
  induction R with
  | nil => rfl
  | cons a t ih =>
    obtain ⟨h1, h2, h3⟩ := h a (List.mem_cons_self a t)
    have hmax : max a.start lo = a.start := by omega
    have hmin : min a.stop hi = a.stop := by omega
    simp only [clipList, List.filterMap_cons, hmax, hmin, if_pos h2]
    have ht := ih (fun r hr => h r (List.mem_cons_of_mem a hr))
    simp only [clipList] at ht
    rw [ht]

theorem foldl_clip_eq (lo hi : Int) :
    ∀ (L : List DateTimeRange) (acc : List DateTimeRange),
      L.foldl
        (fun acc r =>
          if max r.start lo ≤ min r.stop hi then
            acc ++ [⟨max r.start lo, min r.stop hi⟩]
          else acc) acc
      = acc ++ clipList L lo hi := by
  intro L
  induction L with
  | nil => intro acc; simp [clipList]
  | cons a t ih =>
    intro acc
    by_cases hc : max a.start lo ≤ min a.stop hi
    · simp only [List.foldl_cons, if_pos hc, ih, clipList, List.filterMap_cons,
        List.append_assoc, List.singleton_append]
    · simp only [List.foldl_cons, if_neg hc, ih, clipList, List.filterMap_cons]

theorem clipList_eq_nil_idx (R : List DateTimeRange) (lo hi : Int)
    (h : ∀ i : Nat, i < R.length →
      min (R.getD i ⟨0, 0⟩).stop hi < max (R.getD i ⟨0, 0⟩).start lo) :
    clipList R lo hi = [] := by
  apply clipList_eq_nil
  intro r hr
  obtain ⟨i, hi, hri⟩ := List.mem_iff_getElem.mp hr
  have hh := h i hi
  rw [List.getD_eq_getElem R ⟨0, 0⟩ hi, hri] at hh
  exact hh

theorem getD_take (R : List DateTimeRange) (m i : Nat) (hm : i < m)
    (hlen : i < R.length) :
    (R.take m).getD i ⟨0, 0⟩ = R.getD i ⟨0, 0⟩ := by
  have h1 : i < (R.take m).length := by
    simp only [List.length_take]; omega
  rw [List.getD_eq_getElem _ _ h1, List.getD_eq_getElem _ _ hlen]
  exact List.getElem_take R

theorem getD_drop (R : List DateTimeRange) (m i : Nat) (hlen : m + i < R.length) :
    (R.drop m).getD i ⟨0, 0⟩ = R.getD (m + i) ⟨0, 0⟩ := by
  have h1 : i < (R.drop m).length := by
    simp only [List.length_drop]; omega
  rw [List.getD_eq_getElem _ _ h1, List.getD_eq_getElem _ _ hlen]
  exact List.getElem_drop R

theorem clipList_slice (R : List DateTimeRange) (lo hi : Int) (sn en : Nat)
    (hsle : sn ≤ en) (henlt : en < R.length)
    (hbelow2 : ∀ i : Nat, i < sn → i < R.length → (R.getD i ⟨0, 0⟩).stop < lo)
    (habove2 : ∀ i : Nat, en < i → i < R.length → hi < (R.getD i ⟨0, 0⟩).start) :
    clipList ((R.drop sn).take (en + 1 - sn)) lo hi = clipList R lo hi := by
  have h1 : (R.drop sn).take (en + 1 - sn) ++ (R.drop sn).drop (en + 1 - sn)
      = R.drop sn := List.take_append_drop _ _
  have h2 : (R.drop sn).drop (en + 1 - sn) = R.drop (en + 1) := by
    rw [List.drop_drop]
    congr 1
    omega
  have h3 : (R.drop sn).take (en + 1 - sn) ++ R.drop (en + 1) = R.drop sn := by
    rw [← h2]
    exact h1
  have hdecomp : R = R.take sn
      ++ ((R.drop sn).take (en + 1 - sn) ++ R.drop (en + 1)) := by
    rw [h3]
    exact (List.take_append_drop sn R).symm
  have hpre : clipList (R.take sn) lo hi = [] := by
    apply clipList_eq_nil_idx
    intro i hidx
    have hlen2 : i < sn := by
      simp only [List.length_take] at hidx; omega
    have hlen3 : i < R.length := by
      simp only [List.length_take] at hidx; omega
    rw [getD_take R sn i hlen2 hlen3]
    have := hbelow2 i hlen2 hlen3
    omega
  have hpost : clipList (R.drop (en + 1)) lo hi = [] := by
    apply clipList_eq_nil_idx
    intro i hidx
    have hlen2 : (en + 1) + i < R.length := by
      simp only [List.length_drop] at hidx; omega
    rw [getD_drop R (en + 1) i hlen2]
    have := habove2 ((en + 1) + i) (by omega) hlen2
    omega
  conv_rhs => rw [hdecomp]
  simp only [clipList, List.filterMap_append]
  simp only [clipList] at hpre hpost
  rw [hpre, hpost, List.nil_append, List.append_nil]

theorem extractSubset_eq_clipList (R : List DateTimeRange) (lo hi : Int)
    (hs : startsMono R = true) (he : endsMono R = true) :
    extractSubset R lo hi = clipList R lo hi := by
  by_cases hR0 : R.length = 0
  · have hnil : R = [] := List.length_eq_zero.mp hR0
    subst hnil
    rfl
  · simp only [extractSubset]
    rw [if_neg (by simp [hR0])]
    rcases findFirstIntersectingIndex_spec R lo he with ⟨hm1, hall1⟩ |
      ⟨hge1, hlt1, hhit1, hbelow⟩
    · rw [if_pos (by simp [hm1])]
      symm
      apply clipList_eq_nil_idx
      intro i hidx
      have := hall1 i hidx
      omega
    · rw [if_neg (by simp; omega)]
      rcases findLastIntersectingIndex_spec R hi hs with ⟨hm2, hall2⟩ |
        ⟨hge2, hlt2, hhit2, habove⟩
      · rw [if_pos (by simp [hm2])]
        symm
        apply clipList_eq_nil_idx
        intro i hidx
        have := hall2 i hidx
        omega
      · by_cases hord : findLastIntersectingIndex R hi
            < findFirstIntersectingIndex R lo
        · rw [if_pos (by simp [hord])]
          symm
          apply clipList_eq_nil_idx
          intro i hidx
          by_cases hcase : (i : Int) < findFirstIntersectingIndex R lo
          · have := hbelow i hcase hidx
            omega
          · have hgt : findLastIntersectingIndex R hi < (i : Int) := by omega
            have := habove i hgt hidx
            omega
        · rw [if_neg (by simp; omega)]
          rw [foldl_clip_eq]
          rw [List.nil_append]
          have htn : (findLastIntersectingIndex R hi + 1
              - findFirstIntersectingIndex R lo).toNat
              = (findLastIntersectingIndex R hi).toNat + 1
                - (findFirstIntersectingIndex R lo).toNat := by omega
          rw [htn]
          apply clipList_slice R lo hi
            (findFirstIntersectingIndex R lo).toNat
            (findLastIntersectingIndex R hi).toNat
            (by omega) (by omega)
          · intro i hltn hlen
            exact hbelow i (by omega) hlen
          · intro i hgtn hlen
            exact habove i (by omega) hlen

theorem evictLRU_empty (M MR : Nat) :
    evictLRU ⟨[], M, MR⟩ = ⟨[], M, MR⟩ := by
  unfold evictLRU
  split <;> rfl

/-- C6 (amended): after `set(block, s1, e1, R)` on a fresh cache,
`get(block, s2, e2)` with `s1 <= s2 <= e2 <= e1` returns exactly the
per-element clipping of `R` to `[s2, e2]`, provided the stored list has
nondecreasing starts and nondecreasing ends and every element is a
well-formed range inside `[s1, e1]`; without the containment premise the
exact-window branch hands back the stored list unclipped. -/
theorem c6_cache_subset_amended
    (h : String) (s1 e1 s2 e2 now now2 : Int) (R : List DateTimeRange)
    (maxSize maxRanges : Nat)
    (h12 : s1 ≤ s2) (h22 : s2 ≤ e2) (h21 : e2 ≤ e1)
    (hsm : startsMono R = true) (hem : endsMono R = true)
    (hin : ∀ r ∈ R, s1 ≤ r.start ∧ r.start ≤ r.stop ∧ r.stop ≤ e1) :
    (cacheGet (cacheSet (ScheduleCache.empty maxSize maxRanges) h s1 e1 R now)
        h s2 e2 now2).1 = some (clipList R s2 e2) := by
  have hset : cacheSet (ScheduleCache.empty maxSize maxRanges) h s1 e1 R now
      = ⟨[(⟨h, s1, e1⟩, ⟨R, s1, e1, now⟩)], maxSize, maxRanges⟩ := by
    simp only [cacheSet, ScheduleCache.empty, List.find?_nil, evictLRU_empty,
      mapSet]
  rw [hset]
  by_cases hex : s1 = s2 ∧ e1 = e2
  · obtain ⟨rfl, rfl⟩ := hex
    simp only [cacheGet, List.find?_cons, beq_self_eq_true, cond]
    rw [clipList_self R s1 e1 hin]
  · have hkne : (⟨h, s1, e1⟩ : CacheKey) ≠ ⟨h, s2, e2⟩ := by
      intro hcon
      simp only [CacheKey.mk.injEq] at hcon
      exact hex ⟨hcon.2.1, hcon.2.2⟩
    have hfind1 : List.find?
        (fun p => p.1 == (⟨h, s2, e2⟩ : CacheKey))
        [((⟨h, s1, e1⟩ : CacheKey), (⟨R, s1, e1, now⟩ : CacheEntry))] = none := by
      rw [List.find?_cons_of_neg _ (by simp [hkne])]
      rfl
    have hce : canExtract s1 e1 s2 e2 = true := by
      simp only [canExtract, ge_iff_le, Bool.and_eq_true, decide_eq_true_eq]
      omega
    have hfind2 : List.find?
        (fun p => p.1.hash == h
          && canExtract p.2.startUnix p.2.stopUnix s2 e2)
        [((⟨h, s1, e1⟩ : CacheKey), (⟨R, s1, e1, now⟩ : CacheEntry))]
        = some ((⟨h, s1, e1⟩ : CacheKey), (⟨R, s1, e1, now⟩ : CacheEntry)) := by
      apply List.find?_cons_of_pos
      simp [hce]
    simp only [cacheGet, hfind1, hfind2]
    rw [extractSubset_eq_clipList R s2 e2 hsm hem]

/-- C6 (counterexample): the claim quantifies over every sorted list `R`;
storing `[[0, 100]]` for the window `[10, 20]` and reading the very same
window back returns the stored list `[[0, 100]]` unclipped — the exact-key
branch of `get` never clips — while the claimed per-element clipping is
`[[10, 20]]`. -/
theorem c6_cache_subset_counterexample :
    startsMono [⟨0, 100⟩] = true ∧ endsMono [⟨0, 100⟩] = true
      ∧ (cacheGet (cacheSet (ScheduleCache.empty 10 10000) "a" 10 20
            [⟨0, 100⟩] 1) "a" 10 20 2).1 = some [⟨0, 100⟩]
      ∧ clipList [⟨0, 100⟩] 10 20 = [⟨10, 20⟩]
      ∧ ([(⟨0, 100⟩ : DateTimeRange)] ≠ [(⟨10, 20⟩ : DateTimeRange)]) := by
  refine ⟨by decide, by decide, by decide, by decide, by decide⟩

/-- C6 (witness): the amended theorem applied at a concrete store of three
ranges over `[0, 100]` and the strict subwindow `[10, 20]`. -/
theorem c6_cache_subset_witness :
    (0 : Int) ≤ 10 ∧ (10 : Int) ≤ 20 ∧ (20 : Int) ≤ 100
      ∧ startsMono [⟨0, 5⟩, ⟨15, 30⟩, ⟨40, 100⟩] = true
      ∧ endsMono [⟨0, 5⟩, ⟨15, 30⟩, ⟨40, 100⟩] = true
      ∧ (∀ r ∈ [(⟨0, 5⟩ : DateTimeRange), ⟨15, 30⟩, ⟨40, 100⟩],
          (0 : Int) ≤ r.start ∧ r.start ≤ r.stop ∧ r.stop ≤ 100)
      ∧ (cacheGet (cacheSet (ScheduleCache.empty 10 10000) "x" 0 100
            [⟨0, 5⟩, ⟨15, 30⟩, ⟨40, 100⟩] 1) "x" 10 20 2).1
          = some (clipList [⟨0, 5⟩, ⟨15, 30⟩, ⟨40, 100⟩] 10 20) :=
  ⟨by decide, by decide, by decide, by decide, by decide, by decide,
    c6_cache_subset_amended "x" 0 100 10 20 1 2 _ 10 10000 (by decide)
      (by decide) (by decide) (by decide) (by decide) (by decide)⟩

end PTW
